import Mathlib

/-!
Verification of the compensated-charge GDF builder
(pyscf/pbc/df/gdf_builder.py).

Arrays are modelled as Lean lists (1-D) or lists of rows (2-D); machine
floats are modelled as elements of a field.  Numpy slice views and
in-place updates are modelled by explicit state passing: functions that
mutate their argument return both the value the Python function returns
and the contents of the argument array after the call.

External collaborators (the libcint integral engine, scipy's dense
linear algebra, `gto.gaussian_int`, `_libcint_ctr_coeff`) are outside
the repository; where a claim depends on them they are modelled as
explicit parameters or, for `scipy.linalg.solve_triangular`, by the
standard forward-substitution semantics of a triangular solve.
-/

namespace GdfBuilder

/-- Elementwise subtraction of the second list from the first, keeping the
extra tail of the first list unchanged.  This models the numpy in-place
statement `seg -= blk` restricted to the common range (in the source the
two slices always have equal length; a shorter second operand would raise
in numpy and never occurs for well-formed offset tables). -/
def sub1 {V : Type _} [Sub V] : List V → List V → List V
  | s, [] => s
  | [], _ => []
  | a :: s, b :: t => (a - b) :: sub1 s t

theorem sub1_length {V : Type _} [Sub V] (s t : List V) :
    (sub1 s t).length = s.length := by
  induction s generalizing t with
  | nil => cases t <;> rfl
  | cons a s ih => cases t with
    | nil => rfl
    | cons b t => simp [sub1, ih]

theorem sub1_getD_lt {V : Type _} [Sub V] (s t : List V) (q : ℕ) (d : V)
    (hs : q < s.length) (ht : q < t.length) :
    (sub1 s t).getD q d = s.getD q d - t.getD q d := by
  induction s generalizing t q with
  | nil => simp at hs
  | cons a s ih =>
    cases t with
    | nil => simp at ht
    | cons b t =>
      cases q with
      | zero => simp [sub1]
      | succ q =>
        simp only [sub1, List.getD_cons_succ]
        exact ih t q (by simpa using hs) (by simpa using ht)

theorem sub1_getD_ge {V : Type _} [Sub V] (s t : List V) (q : ℕ) (d : V)
    (ht : t.length ≤ q) :
    (sub1 s t).getD q d = s.getD q d := by
  induction s generalizing t q with
  | nil => cases t <;> rfl
  | cons a s ih =>
    cases t with
    | nil => rfl
    | cons b t =>
      cases q with
      | zero => simp at ht
      | succ q =>
        simp only [sub1, List.getD_cons_succ]
        exact ih t q (by simpa using ht)

/-- Repeated block subtraction: subtract the fixed block `blk` from `seg`
in consecutive chunks of `nd` entries.  This models the source loop
`for i0, i1 in lib.prange(c0, c1, nd): Lpq[i0:i1] -= chgLpq[p0:p0+nd]`
acting on the segment `Lpq[c0:c1]`. -/
def subBlocks {V : Type _} [Sub V] (nd : ℕ) (blk : List V) : List V → List V
  | [] => []
  | a :: s =>
    if nd = 0 then a :: s
    else sub1 ((a :: s).take nd) blk ++ subBlocks nd blk ((a :: s).drop nd)
termination_by seg => seg.length
decreasing_by
  simp only [List.length_drop, List.length_cons]
  omega

theorem subBlocks_length {V : Type _} [Sub V] (nd : ℕ) (blk : List V) :
    ∀ seg : List V, (subBlocks nd blk seg).length = seg.length
  | [] => by rw [subBlocks]
  | a :: s => by
    rw [subBlocks]
    split
    · rfl
    · rename_i h
      have ih := subBlocks_length nd blk ((a :: s).drop nd)
      simp only [List.length_append, sub1_length, ih, List.length_take,
        List.length_drop, List.length_cons]
      omega
termination_by seg => seg.length
decreasing_by
  simp only [List.length_drop, List.length_cons]
  omega

theorem subBlocks_getD {V : Type _} [Sub V] (nd : ℕ) (blk : List V)
    (hblk : blk.length = nd) (hnd : nd ≠ 0) :
    ∀ (seg : List V) (q : ℕ) (d : V), q < seg.length →
      (subBlocks nd blk seg).getD q d = seg.getD q d - blk.getD (q % nd) d
  | [], q, d, hq => by simp at hq
  | a :: s, q, d, hq => by
    rw [subBlocks]
    rw [if_neg hnd]
    by_cases hqnd : q < nd
    · have hlen : q < (sub1 ((a :: s).take nd) blk).length := by
        simp only [sub1_length, List.length_take, List.length_cons]
        simp only [List.length_cons] at hq
        omega
      rw [List.getD_append _ _ _ _ hlen]
      rw [sub1_getD_lt _ _ _ _
        (by simp only [List.length_take, List.length_cons]
            simp only [List.length_cons] at hq
            omega)
        (by omega)]
      rw [Nat.mod_eq_of_lt hqnd]
      congr 1
      rw [List.getD_eq_getElem?_getD, List.getD_eq_getElem?_getD]
      rw [List.getElem?_take_of_lt hqnd]
    · push_neg at hqnd
      have hl1 : (sub1 ((a :: s).take nd) blk).length = nd := by
        simp only [sub1_length, List.length_take, List.length_cons]
        simp only [List.length_cons] at hq
        omega
      rw [List.getD_append_right _ _ _ _ (by omega)]
      rw [hl1]
      have ih := subBlocks_getD nd blk hblk hnd ((a :: s).drop nd) (q - nd) d
        (by simp only [List.length_drop, List.length_cons]
            simp only [List.length_cons] at hq
            omega)
      rw [ih]
      rw [← Nat.mod_eq_sub_mod hqnd]
      congr 1
      rw [List.getD_eq_getElem?_getD, List.getD_eq_getElem?_getD,
        List.getElem?_drop]
      congr 2
      omega
termination_by seg => seg.length
decreasing_by
  simp only [List.length_drop, List.length_cons]
  omega

/-- One contracted shell of the auxiliary basis: its atom index, angular
momentum `l` and number of contractions.  (Exponents and contraction
coefficients do not enter the fuse operator.) -/
structure AuxShell where
  atom : ℕ
  l : ℕ
  nctr : ℕ
deriving DecidableEq, Repr

/-- Spherical width of one shell: `(2l+1) * nctr` basis functions
(the source's `aux_loc[i+1] - aux_loc[i]` for a spherical cell). -/
def shellW (sh : AuxShell) : ℕ := (2 * sh.l + 1) * sh.nctr

/-- The spherical branch of the `fuse` closure built by `fuse_auxcell`
(gdf_builder.py lines 426-440), iterated over the shells of the auxiliary
cell.  `ofs` is the captured `modchg_offset` table (`-1` marks an absent
entry), `chg` the trailing model-charge block `Lpq[naux:]` of the array
being fused, and `lead` the leading block `Lpq[:naux]`.  For each shell
with a matching model-charge entry the block `chg[p0:p0+nd]` is
subtracted from each of the shell's `nctr` chunks of `nd = 2l+1` rows.
The successive `take`/`drop` walk the `aux_loc` offsets of the source. -/
def fuseGo {V : Type _} [Sub V] (ofs : ℕ → ℕ → ℤ) (chg : List V) :
    List AuxShell → List V → List V
  | [], lead => lead
  | sh :: rest, lead =>
    let nd := 2 * sh.l + 1
    let w := nd * sh.nctr
    let seg := lead.take w
    let seg2 :=
      if 0 ≤ ofs sh.atom sh.l then
        subBlocks nd ((chg.drop (ofs sh.atom sh.l).toNat).take nd) seg
      else seg
    seg2 ++ fuseGo ofs chg rest (lead.drop w)

/-- Value returned by the spherical `fuse(Lpq)` (axis 0): the in-place
subtracted leading `naux` entries; the trailing block is dropped. -/
def fuseSph {V : Type _} [Sub V] (naux : ℕ) (ofs : ℕ → ℕ → ℤ)
    (shells : List AuxShell) (Lpq : List V) : List V :=
  fuseGo ofs (Lpq.drop naux) shells (Lpq.take naux)

/-- The spherical `fuse` call with the numpy view semantics made explicit:
`Lpq[:naux]` and `Lpq[naux:]` are views of the caller's array and the
statement `Lpq[i0:i1] -= chgLpq[p0:p0+nd]` writes through the first view.
The first component is the value the Python function returns; the second
is the contents of the caller's array after the call. -/
def fuseSphCall {V : Type _} [Sub V] (naux : ℕ) (ofs : ℕ → ℕ → ℤ)
    (shells : List AuxShell) (Lpq : List V) : List V × List V :=
  (fuseSph naux ofs shells Lpq, fuseSph naux ofs shells Lpq ++ Lpq.drop naux)

/-- Index into the model-charge block subtracted at leading position `c`,
if any: position `c` falls in shell `i` at offset `q = c - aux_loc[i]`,
and the shell's matching model-charge functions sit at
`p0 + (q mod (2l+1))`. -/
def corrIdx (ofs : ℕ → ℕ → ℤ) : List AuxShell → ℕ → Option ℕ
  | [], _ => none
  | sh :: rest, c =>
    let nd := 2 * sh.l + 1
    let w := nd * sh.nctr
    if c < w then
      if 0 ≤ ofs sh.atom sh.l then some ((ofs sh.atom sh.l).toNat + c % nd)
      else none
    else corrIdx ofs rest (c - w)

theorem fuseGo_length {V : Type _} [Sub V] (ofs : ℕ → ℕ → ℤ) (chg : List V) :
    ∀ (shells : List AuxShell) (lead : List V),
      (fuseGo ofs chg shells lead).length = lead.length := by
  intro shells
  induction shells with
  | nil => intro lead; rfl
  | cons sh rest ih =>
    intro lead
    simp only [fuseGo, List.length_append, ih]
    split
    · simp only [subBlocks_length, List.length_take, List.length_drop]
      omega
    · simp only [List.length_take, List.length_drop]
      omega

/-- Entrywise characterization of the spherical fuse loop: position `c`
of the output is position `c` of the input, minus the model-charge entry
designated by `corrIdx` when the shell containing `c` has a matching
model-charge function.  The hypothesis states that the offset table
points inside the model-charge block (true of the table built by
`fuse_auxcell`). -/
theorem fuseGo_getD {V : Type _} [Sub V] (ofs : ℕ → ℕ → ℤ) (chg : List V)
    (shells : List AuxShell)
    (hwf : ∀ sh ∈ shells, 0 ≤ ofs sh.atom sh.l →
      (ofs sh.atom sh.l).toNat + (2 * sh.l + 1) ≤ chg.length) :
    ∀ (lead : List V) (c : ℕ) (d : V), c < lead.length →
      (fuseGo ofs chg shells lead).getD c d =
        match corrIdx ofs shells c with
        | none => lead.getD c d
        | some p => lead.getD c d - chg.getD p d := by
  induction shells with
  | nil => intro lead c d hc; rfl
  | cons sh rest ih =>
    intro lead c d hc
    have hwf1 := hwf sh (by simp)
    have hwfr : ∀ s ∈ rest, 0 ≤ ofs s.atom s.l →
        (ofs s.atom s.l).toNat + (2 * s.l + 1) ≤ chg.length := by
      intro s hs
      exact hwf s (List.mem_cons_of_mem _ hs)
    simp only [fuseGo, corrIdx]
    by_cases hcw : c < (2 * sh.l + 1) * sh.nctr
    · rw [if_pos hcw]
      by_cases hofs : 0 ≤ ofs sh.atom sh.l
      · rw [if_pos hofs, if_pos hofs]
        have hblk : ((chg.drop (ofs sh.atom sh.l).toNat).take
            (2 * sh.l + 1)).length = 2 * sh.l + 1 := by
          simp only [List.length_take, List.length_drop]
          have := hwf1 hofs
          omega
        have hseg : c < (lead.take ((2 * sh.l + 1) * sh.nctr)).length := by
          simp only [List.length_take]; omega
        have hlen2 : c < (subBlocks (2 * sh.l + 1)
            ((chg.drop (ofs sh.atom sh.l).toNat).take (2 * sh.l + 1))
            (lead.take ((2 * sh.l + 1) * sh.nctr))).length := by
          rw [subBlocks_length]; exact hseg
        rw [List.getD_append _ _ _ _ hlen2]
        rw [subBlocks_getD _ _ hblk (by omega) _ _ _ hseg]
        have htake : (lead.take ((2 * sh.l + 1) * sh.nctr)).getD c d =
            lead.getD c d := by
          rw [List.getD_eq_getElem?_getD, List.getD_eq_getElem?_getD,
            List.getElem?_take_of_lt hcw]
        rw [htake]
        congr 1
        have hmod : c % (2 * sh.l + 1) < 2 * sh.l + 1 := Nat.mod_lt _ (by omega)
        rw [List.getD_eq_getElem?_getD, List.getD_eq_getElem?_getD,
          List.getElem?_take_of_lt hmod, List.getElem?_drop]
      · rw [if_neg hofs, if_neg hofs]
        have hseg : c < (lead.take ((2 * sh.l + 1) * sh.nctr)).length := by
          simp only [List.length_take]; omega
        rw [List.getD_append _ _ _ _ hseg]
        rw [List.getD_eq_getElem?_getD, List.getD_eq_getElem?_getD,
          List.getElem?_take_of_lt hcw]
    · rw [if_neg hcw]
      push_neg at hcw
      have hseg2 :
          (if 0 ≤ ofs sh.atom sh.l then
            subBlocks (2 * sh.l + 1)
              ((chg.drop (ofs sh.atom sh.l).toNat).take (2 * sh.l + 1))
              (lead.take ((2 * sh.l + 1) * sh.nctr))
          else lead.take ((2 * sh.l + 1) * sh.nctr)).length =
          (2 * sh.l + 1) * sh.nctr := by
        split
        · rw [subBlocks_length]
          simp only [List.length_take]
          omega
        · simp only [List.length_take]
          omega
      rw [List.getD_append_right _ _ _ _ (by rw [hseg2]; omega)]
      rw [hseg2]
      rw [ih hwfr _ _ d (by simp only [List.length_drop]; omega)]
      have hdrop :
          (lead.drop ((2 * sh.l + 1) * sh.nctr)).getD
            (c - (2 * sh.l + 1) * sh.nctr) d = lead.getD c d := by
        rw [List.getD_eq_getElem?_getD, List.getD_eq_getElem?_getD,
          List.getElem?_drop]
        congr 2
        omega
      cases corrIdx ofs rest (c - (2 * sh.l + 1) * sh.nctr) with
      | none => exact hdrop
      | some p => rw [hdrop]

theorem corrIdx_lt (ofs : ℕ → ℕ → ℤ) (m : ℕ) :
    ∀ (shells : List AuxShell) (c p : ℕ),
      (∀ sh ∈ shells, 0 ≤ ofs sh.atom sh.l →
        (ofs sh.atom sh.l).toNat + (2 * sh.l + 1) ≤ m) →
      corrIdx ofs shells c = some p → p < m := by
  intro shells
  induction shells with
  | nil => intro c p _ h; exact absurd h (by simp [corrIdx])
  | cons sh rest ih =>
    intro c p hwf h
    simp only [corrIdx] at h
    split at h
    · split at h
      · rename_i hofs
        have hb := hwf sh (by simp) hofs
        have hmod : c % (2 * sh.l + 1) < 2 * sh.l + 1 := Nat.mod_lt _ (by omega)
        have hp : (ofs sh.atom sh.l).toNat + c % (2 * sh.l + 1) = p :=
          Option.some.inj h
        omega
      · exact absurd h (by simp)
    · exact ih _ _ (fun s hs => hwf s (List.mem_cons_of_mem _ hs)) h

/-- Entrywise description of the value returned by the spherical
`fuse(Lpq)` in terms of the argument array. -/
theorem fuseSph_getD {V : Type _} [Sub V] (naux : ℕ) (ofs : ℕ → ℕ → ℤ)
    (shells : List AuxShell) (Lpq : List V)
    (hn : naux ≤ Lpq.length)
    (hwf : ∀ sh ∈ shells, 0 ≤ ofs sh.atom sh.l →
      (ofs sh.atom sh.l).toNat + (2 * sh.l + 1) ≤ Lpq.length - naux)
    (c : ℕ) (d : V) (hc : c < naux) :
    (fuseSph naux ofs shells Lpq).getD c d =
      match corrIdx ofs shells c with
      | none => Lpq.getD c d
      | some p => Lpq.getD c d - Lpq.getD (naux + p) d := by
  have hchg : (Lpq.drop naux).length = Lpq.length - naux := List.length_drop _ _
  have h1 := fuseGo_getD ofs (Lpq.drop naux) shells
    (by rw [hchg]; exact hwf) (Lpq.take naux) c d
    (by simp only [List.length_take]; omega)
  unfold fuseSph
  rw [h1]
  have htake : (Lpq.take naux).getD c d = Lpq.getD c d := by
    rw [List.getD_eq_getElem?_getD, List.getD_eq_getElem?_getD,
      List.getElem?_take_of_lt hc]
  have hdrop : ∀ p : ℕ, (Lpq.drop naux).getD p d = Lpq.getD (naux + p) d := by
    intro p
    rw [List.getD_eq_getElem?_getD, List.getD_eq_getElem?_getD,
      List.getElem?_drop]
  cases corrIdx ofs shells c with
  | none => exact htake
  | some p =>
    show (Lpq.take naux).getD c d - (Lpq.drop naux).getD p d =
      Lpq.getD c d - Lpq.getD (naux + p) d
    rw [htake, hdrop]

theorem sub1_all_zero {V : Type _} [SubtractionMonoid V]
    (s t : List V) (ht : ∀ x ∈ t, x = 0) : sub1 s t = s := by
  induction s generalizing t with
  | nil => cases t <;> rfl
  | cons a s ih =>
    cases t with
    | nil => rfl
    | cons b t =>
      have hb : b = 0 := ht b (by simp)
      simp only [sub1, hb, sub_zero]
      rw [ih t (fun x hx => ht x (by simp [hx]))]

theorem subBlocks_all_zero {V : Type _} [SubtractionMonoid V] (nd : ℕ)
    (blk : List V) (hb : ∀ x ∈ blk, x = 0) :
    ∀ seg : List V, subBlocks nd blk seg = seg
  | [] => by rw [subBlocks]
  | a :: s => by
    rw [subBlocks]
    split
    · rfl
    · rw [sub1_all_zero _ _ hb,
        subBlocks_all_zero nd blk hb ((a :: s).drop nd),
        List.take_append_drop]
termination_by seg => seg.length
decreasing_by
  simp only [List.length_drop, List.length_cons]
  omega

theorem fuseGo_all_zero {V : Type _} [SubtractionMonoid V]
    (ofs : ℕ → ℕ → ℤ) (chg : List V) (hchg : ∀ x ∈ chg, x = 0) :
    ∀ (shells : List AuxShell) (lead : List V),
      fuseGo ofs chg shells lead = lead := by
  intro shells
  induction shells with
  | nil => intro lead; rfl
  | cons sh rest ih =>
    intro lead
    simp only [fuseGo]
    have hblk : ∀ x ∈ (chg.drop (ofs sh.atom sh.l).toNat).take (2 * sh.l + 1),
        x = 0 := by
      intro x hx
      exact hchg x (List.mem_of_mem_drop (List.mem_of_mem_take hx))
    split
    · rw [subBlocks_all_zero _ _ hblk, ih, List.take_append_drop]
    · rw [ih, List.take_append_drop]

/-- Cartesian component count of angular momentum `l`:
`(l+1)(l+2)/2` functions per contraction. -/
def cartDim (l : ℕ) : ℕ := (l + 1) * (l + 2) / 2

/-- The Cartesian branch of the `fuse` closure (gdf_builder.py lines
391-424).  After the in-place block subtraction (with Cartesian component
count `nd = (l+1)(l+2)/2`), each shell block is written into the
spherical output: copied unchanged for `l < 2`, transformed by the
external libcint `CINTc2s_ket_sph` routine for `l ≥ 2`.  The external
transform is modelled by the abstract per-shell map `c2s`. -/
def fuseCartGo {V : Type _} [Sub V] (c2s : ℕ → List V → List V)
    (ofs : ℕ → ℕ → ℤ) (chg : List V) : List AuxShell → List V → List V
  | [], _ => []
  | sh :: rest, lead =>
    let nd := cartDim sh.l
    let w := nd * sh.nctr
    let seg := lead.take w
    let seg2 :=
      if 0 ≤ ofs sh.atom sh.l then
        subBlocks nd ((chg.drop (ofs sh.atom sh.l).toNat).take nd) seg
      else seg
    (if sh.l < 2 then seg2 else c2s sh.l seg2) ++
      fuseCartGo c2s ofs chg rest (lead.drop w)

/-- Value returned by the Cartesian `fuse(Lpq)` (axis 0). -/
def fuseCart {V : Type _} [Sub V] (c2s : ℕ → List V → List V) (naux : ℕ)
    (ofs : ℕ → ℕ → ℤ) (shells : List AuxShell) (Lpq : List V) : List V :=
  fuseCartGo c2s ofs (Lpq.drop naux) shells (Lpq.take naux)

/-- Modelled from the spec: the Cartesian-to-spherical transform alone
("the leading naux entries ... after the Cartesian-to-spherical
transform"), i.e. the shell-by-shell output of the Cartesian fuse when no
subtraction takes place.  Used to compare the Cartesian fuse against the
spec's description in the zero-model-charge case. -/
def cartToSphAll {V : Type _} (c2s : ℕ → List V → List V) :
    List AuxShell → List V → List V
  | [], _ => []
  | sh :: rest, lead =>
    let w := cartDim sh.l * sh.nctr
    (if sh.l < 2 then lead.take w else c2s sh.l (lead.take w)) ++
      cartToSphAll c2s rest (lead.drop w)

theorem fuseCartGo_all_zero {V : Type _} [SubtractionMonoid V]
    (c2s : ℕ → List V → List V) (ofs : ℕ → ℕ → ℤ) (chg : List V)
    (hchg : ∀ x ∈ chg, x = 0) :
    ∀ (shells : List AuxShell) (lead : List V),
      fuseCartGo c2s ofs chg shells lead = cartToSphAll c2s shells lead := by
  intro shells
  induction shells with
  | nil => intro lead; rfl
  | cons sh rest ih =>
    intro lead
    simp only [fuseCartGo, cartToSphAll]
    have hblk : ∀ x ∈ (chg.drop (ofs sh.atom sh.l).toNat).take (cartDim sh.l),
        x = 0 := by
      intro x hx
      exact hchg x (List.mem_of_mem_drop (List.mem_of_mem_take hx))
    rw [ih]
    have hsub : (if 0 ≤ ofs sh.atom sh.l then
        subBlocks (cartDim sh.l)
          ((chg.drop (ofs sh.atom sh.l).toNat).take (cartDim sh.l))
          (lead.take (cartDim sh.l * sh.nctr))
      else lead.take (cartDim sh.l * sh.nctr)) =
        lead.take (cartDim sh.l * sh.nctr) := by
      split
      · exact subBlocks_all_zero _ _ hblk _
      · rfl
    rw [hsub]

section Matrices

variable {K : Type _}

/-- Row subtraction for list-of-rows matrices (numpy elementwise `-`,
restricted to the common length; rows always have equal length in the
source). -/
instance instSubList {α : Type _} [Sub α] : Sub (List α) :=
  ⟨List.zipWith (fun a b => a - b)⟩

theorem listSub_def {α : Type _} [Sub α] (a b : List α) :
    a - b = List.zipWith (fun x y => x - y) a b := rfl

theorem getD_zipWith {α β γ : Type _} (f : α → β → γ) :
    ∀ (a : List α) (b : List β) (i : ℕ) (da : α) (db : β) (dc : γ),
      i < a.length → i < b.length →
      (List.zipWith f a b).getD i dc = f (a.getD i da) (b.getD i db)
  | [], _, _, _, _, _, ha, _ => by simp at ha
  | _ :: _, [], _, _, _, _, _, hb => by simp at hb
  | x :: a, y :: b, 0, da, db, dc, _, _ => rfl
  | x :: a, y :: b, i + 1, da, db, dc, ha, hb => by
    simp only [List.zipWith_cons_cons, List.getD_cons_succ]
    exact getD_zipWith f a b i da db dc (by simpa using ha) (by simpa using hb)

theorem length_zipWith' {α β γ : Type _} (f : α → β → γ) (a : List α)
    (b : List β) : (List.zipWith f a b).length = min a.length b.length :=
  List.length_zipWith f a b

theorem listSub_getD {α : Type _} [Sub α] (a b : List α) (i : ℕ) (d : α)
    (ha : i < a.length) (hb : i < b.length) :
    (a - b).getD i d = a.getD i d - b.getD i d :=
  getD_zipWith _ a b i d d d ha hb

theorem getD_map_lt {α β : Type _} (f : α → β) (l : List α) (i : ℕ) (d : β)
    (d0 : α) (h : i < l.length) : (l.map f).getD i d = f (l.getD i d0) := by
  rw [List.getD_eq_getElem?_getD, List.getD_eq_getElem?_getD,
    List.getElem?_map, List.getElem?_eq_getElem h]
  rfl

theorem getD_range_map {α : Type _} (f : ℕ → α) (m i : ℕ) (d : α)
    (h : i < m) : ((List.range m).map f).getD i d = f i := by
  rw [getD_map_lt f _ i d 0 (by simpa using h)]
  congr 1
  rw [List.getD_eq_getElem?_getD, List.getElem?_eq_getElem (by simpa using h)]
  simp

/-- Entry `(i, j)` of a list-of-rows matrix, defaulting to `0` outside
the stored rectangle. -/
def matGet [Zero K] (M : List (List K)) (i j : ℕ) : K :=
  (M.getD i []).getD j 0

/-- Transpose of a list-of-rows matrix with `m` columns (numpy `.T`). -/
def transposeM [Zero K] (m : ℕ) (M : List (List K)) : List (List K) :=
  (List.range m).map fun j => M.map fun row => row.getD j 0

/-- Elementwise complex conjugation (numpy `.conj()`). -/
def starM [Star K] (M : List (List K)) : List (List K) :=
  M.map (List.map star)

/-- Elementwise matrix sum (numpy `+`). -/
def addM [Add K] (A B : List (List K)) : List (List K) :=
  List.zipWith (List.zipWith (fun a b => a + b)) A B

/-- Elementwise scaling (numpy `M * c`). -/
def scaleM [Mul K] (c : K) (M : List (List K)) : List (List K) :=
  M.map (List.map fun x => x * c)

theorem length_transposeM [Zero K] (m : ℕ) (M : List (List K)) :
    (transposeM m M).length = m := by
  simp [transposeM]

theorem transposeM_row [Zero K] (m : ℕ) (M : List (List K)) (i : ℕ)
    (h : i < m) :
    (transposeM m M).getD i [] = M.map fun row => row.getD i 0 :=
  getD_range_map _ m i [] h

theorem transposeM_rowlen [Zero K] (m : ℕ) (M : List (List K)) (i : ℕ)
    (h : i < m) : ((transposeM m M).getD i []).length = M.length := by
  rw [transposeM_row m M i h, List.length_map]

theorem matGet_transposeM [Zero K] (m : ℕ) (M : List (List K)) (i j : ℕ)
    (hi : i < m) (hj : j < M.length) :
    matGet (transposeM m M) i j = matGet M j i := by
  unfold matGet
  rw [transposeM_row m M i hi, getD_map_lt _ M j 0 [] hj]

/-- Well-formedness of a list-of-rows matrix: `n` rows of length `m`. -/
def isMat (n m : ℕ) (M : List (List K)) : Prop :=
  M.length = n ∧ ∀ r ∈ M, r.length = m

instance isMatDecidable (n m : ℕ) (M : List (List K)) :
    Decidable (isMat n m M) :=
  decidable_of_iff (M.length = n ∧ ∀ r ∈ M, r.length = m) Iff.rfl

theorem rowlen_of_isMat [Zero K] {n m : ℕ} {M : List (List K)}
    (h : isMat n m M) {i : ℕ} (hi : i < n) :
    (M.getD i []).length = m := by
  have hlen : i < M.length := by rw [h.1]; exact hi
  rw [List.getD_eq_getElem?_getD, List.getElem?_eq_getElem hlen]
  exact h.2 _ (List.getElem_mem hlen)

theorem matGet_addM [AddMonoid K] {A B : List (List K)} (i j : ℕ)
    (hA : i < A.length) (hB : i < B.length)
    (hrA : j < (A.getD i []).length) (hrB : j < (B.getD i []).length) :
    matGet (addM A B) i j = matGet A i j + matGet B i j := by
  unfold matGet addM
  rw [getD_zipWith _ A B i [] [] [] hA hB]
  exact getD_zipWith _ _ _ j 0 0 0 hrA hrB

theorem matGet_scaleM [MulZeroClass K] {M : List (List K)} (c : K) (i j : ℕ)
    (hi : i < M.length) (hj : j < (M.getD i []).length) :
    matGet (scaleM c M) i j = matGet M i j * c := by
  unfold matGet scaleM
  rw [getD_map_lt _ M i [] [] hi, getD_map_lt _ _ j 0 0 hj]

theorem matGet_starM [Zero K] [Star K] {M : List (List K)} (i j : ℕ)
    (hi : i < M.length) (hj : j < (M.getD i []).length) :
    matGet (starM M) i j = star (matGet M i j) := by
  unfold matGet starM
  rw [getD_map_lt _ M i [] [] hi, getD_map_lt _ _ j 0 0 hj]

theorem isMat_starM [Star K] {n m : ℕ} {M : List (List K)}
    (h : isMat n m M) : isMat n m (starM M) := by
  constructor
  · simp [starM, h.1]
  · intro r hr
    simp only [starM, List.mem_map] at hr
    obtain ⟨r0, hr0, rfl⟩ := hr
    simp [h.2 r0 hr0]

theorem isMat_scaleM [Mul K] {n m : ℕ} {M : List (List K)} (c : K)
    (h : isMat n m M) : isMat n m (scaleM c M) := by
  constructor
  · simp [scaleM, h.1]
  · intro r hr
    simp only [scaleM, List.mem_map] at hr
    obtain ⟨r0, hr0, rfl⟩ := hr
    simp [h.2 r0 hr0]

theorem isMat_addM [Add K] {n m : ℕ} {A B : List (List K)}
    (hA : isMat n m A) (hB : isMat n m B) : isMat n m (addM A B) := by
  constructor
  · simp [addM, List.length_zipWith, hA.1, hB.1]
  · intro r hr
    simp only [addM] at hr
    rw [List.mem_iff_getElem] at hr
    obtain ⟨i, hi, rfl⟩ := hr
    have hiA : i < A.length := by
      rw [List.length_zipWith, hA.1, hB.1] at hi
      rw [hA.1]
      omega
    have hiB : i < B.length := by
      rw [List.length_zipWith, hA.1, hB.1] at hi
      rw [hB.1]
      omega
    rw [List.getElem_zipWith]
    rw [List.length_zipWith]
    have h1 : A[i].length = m := hA.2 _ (List.getElem_mem hiA)
    have h2 : B[i].length = m := hB.2 _ (List.getElem_mem hiB)
    omega

theorem isMat_transposeM [Zero K] {n m : ℕ} {M : List (List K)}
    (h : M.length = n) : isMat m n (transposeM m M) := by
  constructor
  · exact length_transposeM m M
  · intro r hr
    simp only [transposeM, List.mem_map] at hr
    obtain ⟨j, _, rfl⟩ := hr
    simp [h]

/-- Symmetrization step of `get_2c2e` (line 174):
`j2c[k] = (j2c[k] + j2c[k].conj().T) * .5`. -/
def j2cSymmetrize [Field K] [StarRing K] (N : ℕ) (M : List (List K)) :
    List (List K) :=
  scaleM ((2 : K)⁻¹) (addM M (transposeM N (starM M)))

/-- The final two lines of `get_2c2e` (lines 174-175) for one k-point,
spherical auxiliary basis: symmetrize the `N x N` aggregated matrix, then
`self.fuse(self.fuse(j2c[k]), axis=1)` collapses both axes from the fused
size `N` to the auxiliary size `naux` (`fuse(X, axis=1)` transposes,
fuses the rows, and transposes back). -/
def get2c2ePost [Field K] [StarRing K] (N naux : ℕ) (ofs : ℕ → ℕ → ℤ)
    (shells : List AuxShell) (M : List (List K)) : List (List K) :=
  let S := j2cSymmetrize N M
  let F := fuseSph naux ofs shells S
  transposeM naux (fuseSph naux ofs shells (transposeM N F))

theorem isMat_j2cSymmetrize [Field K] [StarRing K] {N : ℕ}
    {M : List (List K)} (h : isMat N N M) :
    isMat N N (j2cSymmetrize N M) :=
  isMat_scaleM _ (isMat_addM h (isMat_transposeM (isMat_starM h).1))

theorem j2cSymmetrize_star [Field K] [StarRing K] {N : ℕ}
    {M : List (List K)} (h : isMat N N M) (a b : ℕ) (ha : a < N)
    (hb : b < N) :
    star (matGet (j2cSymmetrize N M) a b) = matGet (j2cSymmetrize N M) b a := by
  have hstar : isMat N N (starM M) := isMat_starM h
  have hT : isMat N N (transposeM N (starM M)) := isMat_transposeM hstar.1
  have hA : isMat N N (addM M (transposeM N (starM M))) := isMat_addM h hT
  have hentry : ∀ x y, x < N → y < N →
      matGet (j2cSymmetrize N M) x y =
        (matGet M x y + star (matGet M y x)) * (2 : K)⁻¹ := by
    intro x y hx hy
    unfold j2cSymmetrize
    rw [matGet_scaleM _ x y (by rw [hA.1]; exact hx)
      (by rw [rowlen_of_isMat hA hx]; exact hy)]
    rw [matGet_addM x y (by rw [h.1]; exact hx) (by rw [hT.1]; exact hx)
      (by rw [rowlen_of_isMat h hx]; exact hy)
      (by rw [rowlen_of_isMat hT hx]; exact hy)]
    rw [matGet_transposeM N _ x y hx (by rw [hstar.1]; exact hy)]
    rw [matGet_starM y x (by rw [h.1]; exact hy)
      (by rw [rowlen_of_isMat h hy]; exact hx)]
  rw [hentry a b ha hb, hentry b a hb ha]
  rw [star_mul, star_inv₀, star_ofNat, star_add, star_star]
  ring

theorem fuseSph_length {V : Type _} [Sub V] (naux : ℕ) (ofs : ℕ → ℕ → ℤ)
    (shells : List AuxShell) (Lpq : List V) (h : naux ≤ Lpq.length) :
    (fuseSph naux ofs shells Lpq).length = naux := by
  unfold fuseSph
  rw [fuseGo_length]
  simp only [List.length_take]
  omega

theorem getD_of_lt {α : Type _} (l : List α) (i : ℕ) (d : α)
    (h : i < l.length) : l.getD i d = l[i] := by
  rw [List.getD_eq_getElem?_getD, List.getElem?_eq_getElem h]
  rfl

end Matrices

/-- Supporting lemma for the j2c Hermiticity claim: entries of the fused
matrix in terms of the symmetrized matrix. -/
theorem fuseSph_matGet {K : Type _} [Field K] (N naux : ℕ)
    (ofs : ℕ → ℕ → ℤ) (shells : List AuxShell) (S : List (List K))
    (hS : isMat N N S) (hnaux : naux ≤ N)
    (hwf : ∀ sh ∈ shells, 0 ≤ ofs sh.atom sh.l →
      (ofs sh.atom sh.l).toNat + (2 * sh.l + 1) ≤ N - naux)
    (a c : ℕ) (ha : a < naux) (hc : c < N) :
    matGet (fuseSph naux ofs shells S) a c =
      match corrIdx ofs shells a with
      | none => matGet S a c
      | some p => matGet S a c - matGet S (naux + p) c := by
  have hrow := fuseSph_getD naux ofs shells S (by rw [hS.1]; exact hnaux)
    (by rw [hS.1]; exact hwf) a [] ha
  unfold matGet
  rw [hrow]
  cases hcorr : corrIdx ofs shells a with
  | none => rfl
  | some p =>
    have hp : p < N - naux := corrIdx_lt ofs (N - naux) shells a p hwf hcorr
    show (S.getD a [] - S.getD (naux + p) []).getD c 0 =
      (S.getD a []).getD c 0 - (S.getD (naux + p) []).getD c 0
    exact listSub_getD _ _ c 0
      (by rw [rowlen_of_isMat hS (by omega)]; exact hc)
      (by rw [rowlen_of_isMat hS (by omega)]; exact hc)

/-- Row lengths of the fused matrix. -/
theorem fuseSph_isMat {K : Type _} [Field K] (N m naux : ℕ)
    (ofs : ℕ → ℕ → ℤ) (shells : List AuxShell) (S : List (List K))
    (hS : isMat N m S) (hnaux : naux ≤ N)
    (hwf : ∀ sh ∈ shells, 0 ≤ ofs sh.atom sh.l →
      (ofs sh.atom sh.l).toNat + (2 * sh.l + 1) ≤ N - naux) :
    isMat naux m (fuseSph naux ofs shells S) := by
  have hlen : (fuseSph naux ofs shells S).length = naux :=
    fuseSph_length naux ofs shells S (by rw [hS.1]; exact hnaux)
  refine ⟨hlen, ?_⟩
  intro r hr
  rw [List.mem_iff_getElem] at hr
  obtain ⟨a, halen, rfl⟩ := hr
  have ha : a < naux := by rw [hlen] at halen; exact halen
  rw [← getD_of_lt _ a [] halen]
  rw [fuseSph_getD naux ofs shells S (by rw [hS.1]; exact hnaux)
    (by rw [hS.1]; exact hwf) a [] ha]
  cases hcorr : corrIdx ofs shells a with
  | none => exact rowlen_of_isMat hS (by omega)
  | some p =>
    have hp : p < N - naux := corrIdx_lt ofs (N - naux) shells a p hwf hcorr
    show (S.getD a [] - S.getD (naux + p) []).length = m
    rw [listSub_def, List.length_zipWith, rowlen_of_isMat hS (by omega),
      rowlen_of_isMat hS (by omega)]
    omega

/-- Claim C1 (spherical auxiliary basis): for every k-point, the matrix
produced by the last two lines of `get_2c2e` - the symmetrization
`(M + M.conj().T) * .5` followed by `fuse` applied to both axes - is
exactly Hermitian.  Exact equality implies the claimed
`M == conj(M)^T` within 1e-10 relative tolerance.  `M` is the aggregated
`N x N` matrix (real-space integrals minus the planewave correction),
`naux` the auxiliary basis size, and the hypotheses state the shape
invariants guaranteed by `fuse_auxcell`. -/
theorem c1_get2c2e_hermitian {K : Type _} [Field K] [StarRing K]
    (N naux : ℕ) (ofs : ℕ → ℕ → ℤ) (shells : List AuxShell)
    (M : List (List K)) (hM : isMat N N M) (hnaux : naux ≤ N)
    (hwf : ∀ sh ∈ shells, 0 ≤ ofs sh.atom sh.l →
      (ofs sh.atom sh.l).toNat + (2 * sh.l + 1) ≤ N - naux)
    (i j : ℕ) (hi : i < naux) (hj : j < naux) :
    matGet (get2c2ePost N naux ofs shells M) i j =
      star (matGet (get2c2ePost N naux ofs shells M) j i) := by
  have hSmat : isMat N N (j2cSymmetrize N M) := isMat_j2cSymmetrize hM
  set S := j2cSymmetrize N M with hSdef
  have hSstar : ∀ a b, a < N → b < N →
      star (matGet S a b) = matGet S b a := fun a b ha hb =>
    j2cSymmetrize_star hM a b ha hb
  set F := fuseSph naux ofs shells S with hFdef
  have hFmat : isMat naux N F := fuseSph_isMat N N naux ofs shells S hSmat
    hnaux hwf
  have hFentry : ∀ a c, a < naux → c < N →
      matGet F a c =
        match corrIdx ofs shells a with
        | none => matGet S a c
        | some p => matGet S a c - matGet S (naux + p) c := fun a c ha hc =>
    fuseSph_matGet N naux ofs shells S hSmat hnaux hwf a c ha hc
  set T := transposeM N F with hTdef
  have hTmat : isMat N naux T := isMat_transposeM hFmat.1
  have hTentry : ∀ a b, a < N → b < naux →
      matGet T a b = matGet F b a := by
    intro a b ha hb
    exact matGet_transposeM N F a b ha (by rw [hFmat.1]; exact hb)
  set Y := fuseSph naux ofs shells T with hYdef
  have hYlen : Y.length = naux :=
    fuseSph_length naux ofs shells T (by rw [hTmat.1]; exact hnaux)
  have hYentry : ∀ a c, a < naux → c < naux →
      matGet Y a c =
        match corrIdx ofs shells a with
        | none => matGet T a c
        | some p => matGet T a c - matGet T (naux + p) c := by
    intro a c ha hc
    have hrow := fuseSph_getD naux ofs shells T (by rw [hTmat.1]; exact hnaux)
      (by rw [hTmat.1]; exact hwf) a [] ha
    unfold matGet
    rw [hrow]
    cases hcorr : corrIdx ofs shells a with
    | none => rfl
    | some p =>
      have hp : p < N - naux := corrIdx_lt ofs (N - naux) shells a p hwf hcorr
      show (T.getD a [] - T.getD (naux + p) []).getD c 0 =
        (T.getD a []).getD c 0 - (T.getD (naux + p) []).getD c 0
      exact listSub_getD _ _ c 0
        (by rw [rowlen_of_isMat hTmat (by omega)]; exact hc)
        (by rw [rowlen_of_isMat hTmat (by omega)]; exact hc)
  have hPentry : ∀ a b, a < naux → b < naux →
      matGet (get2c2ePost N naux ofs shells M) a b = matGet Y b a := by
    intro a b ha hb
    show matGet (transposeM naux Y) a b = matGet Y b a
    exact matGet_transposeM naux Y a b ha (by rw [hYlen]; exact hb)
  have hbound : ∀ a p, corrIdx ofs shells a = some p → naux + p < N := by
    intro a p hp
    have := corrIdx_lt ofs (N - naux) shells a p hwf hp
    omega
  rw [hPentry i j hi hj, hPentry j i hj hi]
  rw [hYentry j i hj hi, hYentry i j hi hj]
  cases hci : corrIdx ofs shells i with
  | none =>
    cases hcj : corrIdx ofs shells j with
    | none =>
      show matGet T j i = star (matGet T i j)
      rw [hTentry j i (by omega) hi, hTentry i j (by omega) hj]
      rw [hFentry i j hi (by omega), hFentry j i hj (by omega)]
      rw [hci, hcj]
      exact (hSstar j i (by omega) (by omega)).symm
    | some pj =>
      have hpj := hbound j pj hcj
      show matGet T j i - matGet T (naux + pj) i =
        star (matGet T i j)
      rw [hTentry j i (by omega) hi, hTentry (naux + pj) i hpj hi,
        hTentry i j (by omega) hj]
      rw [hFentry i j hi (by omega), hFentry i (naux + pj) hi hpj,
        hFentry j i hj (by omega)]
      rw [hci, hcj]
      show matGet S i j - matGet S i (naux + pj) =
        star (matGet S j i - matGet S (naux + pj) i)
      rw [star_sub]
      rw [hSstar j i (by omega) (by omega),
        hSstar (naux + pj) i hpj (by omega)]
  | some pi =>
    have hpi := hbound i pi hci
    cases hcj : corrIdx ofs shells j with
    | none =>
      show matGet T j i = star (matGet T i j - matGet T (naux + pi) j)
      rw [hTentry j i (by omega) hi, hTentry i j (by omega) hj,
        hTentry (naux + pi) j hpi hj]
      rw [hFentry i j hi (by omega), hFentry j i hj (by omega),
        hFentry j (naux + pi) hj hpi]
      rw [hci, hcj]
      show matGet S i j - matGet S (naux + pi) j =
        star (matGet S j i - matGet S j (naux + pi))
      rw [star_sub]
      rw [hSstar j i (by omega) (by omega),
        hSstar j (naux + pi) (by omega) hpi]
    | some pj =>
      have hpj := hbound j pj hcj
      show matGet T j i - matGet T (naux + pj) i =
        star (matGet T i j - matGet T (naux + pi) j)
      rw [hTentry j i (by omega) hi, hTentry (naux + pj) i hpj hi,
        hTentry i j (by omega) hj, hTentry (naux + pi) j hpi hj]
      rw [hFentry i j hi (by omega), hFentry i (naux + pj) hi hpj,
        hFentry j i hj (by omega), hFentry j (naux + pi) hj hpi]
      rw [hci, hcj]
      show (matGet S i j - matGet S (naux + pi) j) -
          (matGet S i (naux + pj) - matGet S (naux + pi) (naux + pj)) =
        star ((matGet S j i - matGet S (naux + pj) i) -
          (matGet S j (naux + pi) - matGet S (naux + pj) (naux + pi)))
      rw [star_sub, star_sub, star_sub]
      rw [hSstar j i (by omega) (by omega),
        hSstar (naux + pj) i hpj (by omega),
        hSstar j (naux + pi) (by omega) hpi,
        hSstar (naux + pj) (naux + pi) hpj hpi]
      ring

/-- Witness for C1: a concrete fused size 2, auxiliary size 1, one s shell
with a matching model-charge entry at offset 0, and a non-symmetric
2x2 input matrix. -/
theorem c1_get2c2e_hermitian_witness :
    isMat 2 2 ([[1, 2], [3, 4]] : List (List ℚ)) ∧
    matGet (get2c2ePost 2 1 (fun _ _ => 0) [⟨0, 0, 1⟩]
        ([[1, 2], [3, 4]] : List (List ℚ))) 0 0 =
      star (matGet (get2c2ePost 2 1 (fun _ _ => 0) [⟨0, 0, 1⟩]
        ([[1, 2], [3, 4]] : List (List ℚ))) 0 0) :=
  ⟨⟨by decide, by decide⟩,
    c1_get2c2e_hermitian 2 1 (fun _ _ => 0) [⟨0, 0, 1⟩] [[1, 2], [3, 4]]
      ⟨by decide, by decide⟩ (by decide) (by decide) 0 0 (by decide)
      (by decide)⟩

/-- Claim C9: for every fused-basis vector whose trailing model-charge
block is entirely zero, `fuse` returns exactly its leading `naux` entries
(spherical auxiliary basis), respectively the Cartesian-to-spherical
transform of the leading `naux` entries (Cartesian auxiliary basis); the
subtraction step contributes nothing. -/
theorem c9_fuse_zero_modchg {V : Type _} [SubtractionMonoid V]
    (naux : ℕ) (ofs : ℕ → ℕ → ℤ) (shells : List AuxShell) (v : List V)
    (hz : ∀ x ∈ v.drop naux, x = 0) :
    fuseSph naux ofs shells v = v.take naux ∧
    ∀ c2s : ℕ → List V → List V,
      fuseCart c2s naux ofs shells v = cartToSphAll c2s shells (v.take naux) := by
  constructor
  · exact fuseGo_all_zero ofs _ hz shells _
  · intro c2s
    exact fuseCartGo_all_zero c2s ofs _ hz shells _

/-- Witness for C9: a concrete vector with zero model-charge block. -/
theorem c9_fuse_zero_modchg_witness :
    (∀ x ∈ ([5, 0] : List ℚ).drop 1, x = 0) ∧
    (fuseSph 1 (fun _ _ => 0) [⟨0, 0, 1⟩] ([5, 0] : List ℚ) =
        ([5, 0] : List ℚ).take 1 ∧
      ∀ c2s : ℕ → List ℚ → List ℚ,
        fuseCart c2s 1 (fun _ _ => 0) [⟨0, 0, 1⟩] ([5, 0] : List ℚ) =
          cartToSphAll c2s [⟨0, 0, 1⟩] (([5, 0] : List ℚ).take 1)) :=
  ⟨by decide, c9_fuse_zero_modchg 1 (fun _ _ => 0) [⟨0, 0, 1⟩] [5, 0]
    (by decide)⟩

/-- Counterexample to claim C4: the spherical `fuse` is not pure in its
argument.  With one s shell, `naux = 1`, model-charge offset 0 and the
argument `[1, 1]`, the in-place statement `Lpq[i0:i1] -= chgLpq[p0:p0+nd]`
overwrites the leading entry of the caller's array: after the call the
argument array holds `[0, 1]`, not `[1, 1]`. -/
theorem c4_fuse_mutation_counterexample :
    (fuseSphCall 1 (fun _ _ => 0) [⟨0, 0, 1⟩] ([1, 1] : List ℚ)).2 ≠
      [1, 1] := by
  have h1 : subBlocks 1 [(1 : ℚ)] [(1 : ℚ)] = [0] := by
    rw [subBlocks]
    norm_num
    rw [subBlocks]
    norm_num [sub1]
  have h2 : (fuseSphCall 1 (fun _ _ => 0) [⟨0, 0, 1⟩]
      ([1, 1] : List ℚ)).2 = [0, 1] := by
    show fuseGo (fun _ _ => 0) [(1 : ℚ)] [⟨0, 0, 1⟩] [(1 : ℚ)] ++ [(1 : ℚ)] =
      [0, 1]
    simp only [fuseGo]
    norm_num [h1]
  rw [h2]
  intro h
  have := List.head_eq_of_cons_eq h
  norm_num at this

/-- Amended claim C4: `fuse` (spherical branch) computes the re-indexed
result - each leading entry minus its matched model-charge entry - but it
is not pure in its argument: the subtraction is performed in place on the
leading `naux` entries of the caller's array.  After the call the
argument array consists of the returned value followed by the unchanged
trailing model-charge block. -/
theorem c4_fuse_in_place_semantics {V : Type _} [Sub V] (naux : ℕ)
    (ofs : ℕ → ℕ → ℤ) (shells : List AuxShell) (v : List V)
    (hn : naux ≤ v.length)
    (hwf : ∀ sh ∈ shells, 0 ≤ ofs sh.atom sh.l →
      (ofs sh.atom sh.l).toNat + (2 * sh.l + 1) ≤ v.length - naux) :
    (fuseSphCall naux ofs shells v).2 =
      (fuseSphCall naux ofs shells v).1 ++ v.drop naux ∧
    (fuseSphCall naux ofs shells v).1.length = naux ∧
    (∀ c d, c < naux → corrIdx ofs shells c = none →
      (fuseSphCall naux ofs shells v).1.getD c d = v.getD c d) ∧
    (∀ c p d, c < naux → corrIdx ofs shells c = some p →
      (fuseSphCall naux ofs shells v).1.getD c d =
        v.getD c d - v.getD (naux + p) d) := by
  refine ⟨rfl, fuseSph_length naux ofs shells v hn, ?_, ?_⟩
  · intro c d hc hcorr
    have h := fuseSph_getD naux ofs shells v hn hwf c d hc
    rw [hcorr] at h
    exact h
  · intro c p d hc hcorr
    have h := fuseSph_getD naux ofs shells v hn hwf c d hc
    rw [hcorr] at h
    exact h

/-- Witness for the amended C4 at a concrete input. -/
theorem c4_fuse_in_place_semantics_witness :
    (1 ≤ ([1, 1] : List ℚ).length) ∧
    ((fuseSphCall 1 (fun _ _ => 0) [⟨0, 0, 1⟩] ([1, 1] : List ℚ)).2 =
        (fuseSphCall 1 (fun _ _ => 0) [⟨0, 0, 1⟩] ([1, 1] : List ℚ)).1 ++
          ([1, 1] : List ℚ).drop 1 ∧
      (fuseSphCall 1 (fun _ _ => 0) [⟨0, 0, 1⟩] ([1, 1] : List ℚ)).1.length =
        1 ∧
      (∀ c d, c < 1 → corrIdx (fun _ _ => 0) [⟨0, 0, 1⟩] c = none →
        (fuseSphCall 1 (fun _ _ => 0) [⟨0, 0, 1⟩]
          ([1, 1] : List ℚ)).1.getD c d = ([1, 1] : List ℚ).getD c d) ∧
      (∀ c p d, c < 1 → corrIdx (fun _ _ => 0) [⟨0, 0, 1⟩] c = some p →
        (fuseSphCall 1 (fun _ _ => 0) [⟨0, 0, 1⟩]
          ([1, 1] : List ℚ)).1.getD c d =
          ([1, 1] : List ℚ).getD c d - ([1, 1] : List ℚ).getD (1 + p) d)) :=
  ⟨by decide, c4_fuse_in_place_semantics 1 (fun _ _ => 0) [⟨0, 0, 1⟩] [1, 1]
    (by decide) (by decide)⟩

section Solver

variable {K : Type _}

/-- Sum of `f 0 + ... + f (n-1)` as a list sum. -/
def sumRange [AddCommMonoid K] (f : ℕ → K) (n : ℕ) : K :=
  ((List.range n).map f).sum

theorem sumRange_succ [AddCommMonoid K] (f : ℕ → K) (n : ℕ) :
    sumRange f (n + 1) = sumRange f n + f n := by
  unfold sumRange
  rw [List.range_succ, List.map_append, List.sum_append]
  simp

theorem sumRange_congr [AddCommMonoid K] (f g : ℕ → K) (n : ℕ)
    (h : ∀ k, k < n → f k = g k) : sumRange f n = sumRange g n := by
  induction n with
  | zero => rfl
  | succ n ih =>
    rw [sumRange_succ, sumRange_succ, ih (fun k hk => h k (by omega)),
      h n (by omega)]

theorem sumRange_eq_of_vanish [AddCommMonoid K] (f : ℕ → K) (a : ℕ) :
    ∀ n, a ≤ n → (∀ k, a ≤ k → f k = 0) → sumRange f n = sumRange f a := by
  intro n
  induction n with
  | zero => intro h _; rw [Nat.le_zero.mp h]
  | succ n ih =>
    intro h hv
    by_cases han : a = n + 1
    · rw [han]
    · have ha : a ≤ n := by omega
      rw [sumRange_succ, ih ha hv, hv n (by omega), add_zero]

theorem getD_of_len_le {α : Type _} (l : List α) (i : ℕ) (d : α)
    (h : l.length ≤ i) : l.getD i d = d := by
  rw [List.getD_eq_getElem?_getD, List.getElem?_eq_none h]
  rfl

theorem matGet_default_of_le [Zero K] (M : List (List K)) (i j : ℕ)
    (h : (M.getD i []).length ≤ j) : matGet M i j = 0 :=
  getD_of_len_le _ _ _ h

/-- Dot product of a row with column `j` of the list-of-rows matrix `B`. -/
def dotCol [NonUnitalNonAssocSemiring K] (ar : List K) (B : List (List K))
    (j : ℕ) : K :=
  (List.zipWith (fun a brow => a * brow.getD j 0) ar B).sum

/-- Dense matrix product (`lib.dot` / numpy `dot`) on list-of-rows
matrices; the column count is read off the first row of `B`. -/
def mmul [NonUnitalNonAssocSemiring K] (A B : List (List K)) :
    List (List K) :=
  A.map fun ar => (List.range (B.headD []).length).map (dotCol ar B)

/-- Modelled from the spec: `scipy.linalg.solve_triangular(j2c, j3c,
lower=True, overwrite_b=True)` is an external dense-linear-algebra
routine (spec section 1 delegates generic linear algebra); its contract -
spec 4.5: "triangular solve `factor · cderi = buffer` (factor is
lower-triangular)" - is modelled by standard forward substitution.
`fwdX L B i` is the `i`-th entry of the solution of `L x = B` for one
column `B`. -/
def fwdX [Field K] (L : List (List K)) (B : ℕ → K) : ℕ → K
  | i =>
    (matGet L i i)⁻¹ *
      (B i - ((List.range i).attach.map
        (fun j => matGet L i j.1 * fwdX L B j.1)).sum)
termination_by i => i
decreasing_by exact List.mem_range.mp j.2

theorem fwdX_eq [Field K] (L : List (List K)) (B : ℕ → K) (i : ℕ) :
    fwdX L B i =
      (matGet L i i)⁻¹ *
        (B i - sumRange (fun j => matGet L i j * fwdX L B j) i) := by
  rw [fwdX]
  congr 2
  unfold sumRange
  rw [List.attach_map_val (List.range i)
    (fun j => matGet L i j * fwdX L B j)]

/-- The dense triangular solve with matrix right-hand side, column by
column. -/
def fwdSolve [Field K] (n m : ℕ) (L B : List (List K)) : List (List K) :=
  (List.range n).map fun i =>
    (List.range m).map fun j => fwdX L (fun r => matGet B r j) i

theorem matGet_fwdSolve [Field K] (n m : ℕ) (L B : List (List K))
    (i j : ℕ) (hi : i < n) (hj : j < m) :
    matGet (fwdSolve n m L B) i j = fwdX L (fun r => matGet B r j) i := by
  unfold matGet fwdSolve
  rw [getD_range_map _ n i [] hi, getD_range_map _ m j 0 hj]
  rfl

/-- Forward substitution solves the lower-triangular system: row `i` of
`L` times the solution reproduces the right-hand side. -/
theorem fwdX_solves [Field K] (n : ℕ) (L : List (List K)) (B : ℕ → K)
    (hlow : ∀ j < n, ∀ i < j, matGet L i j = 0)
    (hdiag : ∀ i < n, matGet L i i ≠ 0) :
    ∀ i, i < n → sumRange (fun k => matGet L i k * fwdX L B k) n = B i := by
  intro i hi
  have hvan : ∀ k, i + 1 ≤ k → k < n → matGet L i k * fwdX L B k = 0 := by
    intro k hk hkn
    rw [hlow k hkn i (by omega), zero_mul]
  have hvan2 : ∀ k, i + 1 ≤ k →
      (fun k => if k < n then matGet L i k * fwdX L B k else 0) k = 0 := by
    intro k hk
    by_cases hkn : k < n
    · simp only [if_pos hkn]; exact hvan k hk hkn
    · simp only [if_neg hkn]
  have hsame : sumRange (fun k => matGet L i k * fwdX L B k) n =
      sumRange (fun k => if k < n then matGet L i k * fwdX L B k else 0) n :=
    sumRange_congr _ _ n (fun k hk => by rw [if_pos hk])
  rw [hsame]
  rw [sumRange_eq_of_vanish _ (i + 1) n (by omega) hvan2]
  rw [sumRange_succ]
  have hsame2 : sumRange
      (fun k => if k < n then matGet L i k * fwdX L B k else 0) i =
      sumRange (fun k => matGet L i k * fwdX L B k) i :=
    sumRange_congr _ _ i (fun k hk => by rw [if_pos (by omega)])
  rw [hsame2, if_pos hi]
  rw [fwdX_eq, mul_inv_cancel_left₀ (hdiag i hi)]
  ring

/-- Tag of the stabilized two-center metric decomposition. -/
inductive J2cTag
  | CD
  | ED
deriving DecidableEq, Repr

/-- The fused right-hand side formed by `solve_cderi` (lines 276-279):
`fuse(j3cR)` when no imaginary buffer exists, else
`fuse(j3cR + j3cI * 1j)`; `im` is the imaginary unit of `K`. -/
def solveJ3c [Field K] (naux : ℕ) (ofs : ℕ → ℕ → ℤ) (shells : List AuxShell)
    (im : K) (j3cR : List (List K)) (j3cI : Option (List (List K))) :
    List (List K) :=
  match j3cI with
  | none => fuseSph naux ofs shells j3cR
  | some jI => fuseSph naux ofs shells (addM j3cR (scaleM im jI))

/-- The `solve_cderi` step (gdf_builder.py lines 274-289): fuse the
buffer, then triangular-solve against the Cholesky factor (tag CD, no
negative branch) or multiply by the eigendecomposition factor (tag ED,
negative branch produced exactly when the decomposition carries one). -/
def solve_cderi [Field K] (naux m : ℕ) (ofs : ℕ → ℕ → ℤ)
    (shells : List AuxShell) (im : K) (j2c : List (List K))
    (j2c_negative : Option (List (List K))) (j2ctag : J2cTag)
    (j3cR : List (List K)) (j3cI : Option (List (List K))) :
    List (List K) × Option (List (List K)) :=
  let j3c := solveJ3c naux ofs shells im j3cR j3cI
  match j2ctag with
  | J2cTag.CD => (fwdSolve naux m j2c j3c, none)
  | J2cTag.ED =>
    (mmul j2c j3c,
      match j2c_negative with
      | none => none
      | some neg => some (mmul neg j3c))

/-- Claim C2: for a lower-triangular Cholesky factor with nonzero
diagonal (as produced for a positive-definite synthetic metric
`M = L * L^H`), the CD branch of `solve_cderi` returns a tensor `cderi`
with `L * cderi` equal to the fused buffer (row by row), and the
negative-branch output is `none`; the ED branch returns the matrix
product of the factor with the fused buffer, and produces a
negative-branch tensor exactly when the decomposition carries a negative
component (`j2c_negative`). -/
theorem c2_solve_cderi_correct {K : Type _} [Field K] (naux m : ℕ)
    (ofs : ℕ → ℕ → ℤ) (shells : List AuxShell) (im : K)
    (L : List (List K)) (j2c_negative : Option (List (List K)))
    (j3cR : List (List K)) (j3cI : Option (List (List K)))
    (hlow : ∀ j < naux, ∀ i < j, matGet L i j = 0)
    (hdiag : ∀ i < naux, matGet L i i ≠ 0) :
    ((solve_cderi naux m ofs shells im L j2c_negative J2cTag.CD
        j3cR j3cI).2 = none ∧
      ∀ i jc, i < naux → jc < m →
        sumRange (fun k => matGet L i k *
          matGet (solve_cderi naux m ofs shells im L j2c_negative J2cTag.CD
            j3cR j3cI).1 k jc) naux =
          matGet (solveJ3c naux ofs shells im j3cR j3cI) i jc) ∧
    (∀ E : List (List K),
      (solve_cderi naux m ofs shells im E j2c_negative J2cTag.ED
        j3cR j3cI).1 = mmul E (solveJ3c naux ofs shells im j3cR j3cI) ∧
      (solve_cderi naux m ofs shells im E j2c_negative J2cTag.ED
        j3cR j3cI).2 = j2c_negative.map fun neg =>
          mmul neg (solveJ3c naux ofs shells im j3cR j3cI)) := by
  refine ⟨⟨rfl, ?_⟩, ?_⟩
  · intro i jc hi hjc
    have hcd : (solve_cderi naux m ofs shells im L j2c_negative J2cTag.CD
        j3cR j3cI).1 =
        fwdSolve naux m L (solveJ3c naux ofs shells im j3cR j3cI) := rfl
    rw [hcd]
    have hcongr := sumRange_congr
      (fun k => matGet L i k * matGet (fwdSolve naux m L
        (solveJ3c naux ofs shells im j3cR j3cI)) k jc)
      (fun k => matGet L i k * fwdX L
        (fun r => matGet (solveJ3c naux ofs shells im j3cR j3cI) r jc) k)
      naux
      (fun k hk => by
        show matGet L i k * matGet (fwdSolve naux m L
            (solveJ3c naux ofs shells im j3cR j3cI)) k jc =
          matGet L i k * fwdX L
            (fun r => matGet (solveJ3c naux ofs shells im j3cR j3cI) r jc) k
        rw [matGet_fwdSolve naux m L _ k jc hk hjc])
    rw [hcongr]
    exact fwdX_solves naux L _ hlow hdiag i hi
  · intro E
    refine ⟨rfl, ?_⟩
    cases j2c_negative <;> rfl

/-- Witness for C2: a concrete 1x1 lower-triangular factor, one fused
row plus one model-charge row, one column. -/
theorem c2_solve_cderi_correct_witness :
    (∀ j < 1, ∀ i < j, matGet ([[2]] : List (List ℚ)) i j = 0) ∧
    (∀ i < 1, matGet ([[2]] : List (List ℚ)) i i ≠ 0) ∧
    (((solve_cderi 1 1 (fun _ _ => 0) [⟨0, 0, 1⟩] (0 : ℚ) [[2]] none
        J2cTag.CD [[3], [4]] none).2 = none ∧
      ∀ i jc, i < 1 → jc < 1 →
        sumRange (fun k => matGet ([[2]] : List (List ℚ)) i k *
          matGet (solve_cderi 1 1 (fun _ _ => 0) [⟨0, 0, 1⟩] (0 : ℚ) [[2]]
            none J2cTag.CD [[3], [4]] none).1 k jc) 1 =
          matGet (solveJ3c 1 (fun _ _ => 0) [⟨0, 0, 1⟩] (0 : ℚ)
            [[3], [4]] none) i jc) ∧
    (∀ E : List (List ℚ),
      (solve_cderi 1 1 (fun _ _ => 0) [⟨0, 0, 1⟩] (0 : ℚ) E none J2cTag.ED
        [[3], [4]] none).1 =
        mmul E (solveJ3c 1 (fun _ _ => 0) [⟨0, 0, 1⟩] (0 : ℚ)
          [[3], [4]] none) ∧
      (solve_cderi 1 1 (fun _ _ => 0) [⟨0, 0, 1⟩] (0 : ℚ) E none J2cTag.ED
        [[3], [4]] none).2 = (none : Option (List (List ℚ))).map fun neg =>
          mmul neg (solveJ3c 1 (fun _ _ => 0) [⟨0, 0, 1⟩] (0 : ℚ)
            [[3], [4]] none))) :=
  ⟨by decide, by decide,
    c2_solve_cderi_correct 1 1 (fun _ _ => 0) [⟨0, 0, 1⟩] (0 : ℚ)
      [[2]] none [[3], [4]] none (by decide) (by decide)⟩

end Solver

section Blocking

theorem sumRange_add_split {K : Type _} [AddCommMonoid K] (f : ℕ → K)
    (a b : ℕ) :
    sumRange f (a + b) = sumRange f a + sumRange (fun t => f (a + t)) b := by
  induction b with
  | zero => simp [sumRange]
  | succ b ih =>
    rw [show a + (b + 1) = (a + b) + 1 from rfl, sumRange_succ, ih,
      sumRange_succ, add_assoc]

/-- The block bounds produced by `lib.prange(p, n, bs)`: pairs
`(p0, min(p0+bs, n))` stepping by `bs`. -/
def prange (p n bs : ℕ) : List (ℕ × ℕ) :=
  if p < n ∧ bs ≠ 0 then (p, min (p + bs) n) :: prange (p + bs) n bs else []
termination_by n - p
decreasing_by
  rename_i h
  omega

/-- The blocked reciprocal-space accumulation of `get_2c2e` (lines
152-169) for one k-point, with the per-grid-point planewave contribution
abstracted as `d`: for each block `(p0, p1)` of `lib.prange(0, ngrids,
blksize)` the source subtracts the block's aggregated contribution
(`j2c[k][naux:] -= j2c_p` and the mirrored corner update - both additive
in the block aggregate) from the running matrix. -/
def blockedAccum {V : Type _} [AddCommGroup V] (init : V) (n bs : ℕ)
    (d : ℕ → V) : V :=
  (prange 0 n bs).foldl
    (fun acc pr => acc - sumRange (fun t => d (pr.1 + t)) (pr.2 - pr.1)) init

theorem blockedAccum_go {V : Type _} [AddCommGroup V] (n bs : ℕ)
    (hbs : bs ≠ 0) (d : ℕ → V) :
    ∀ (p : ℕ) (acc : V),
      (prange p n bs).foldl
        (fun a pr => a - sumRange (fun t => d (pr.1 + t)) (pr.2 - pr.1))
        acc =
      acc - sumRange (fun t => d (p + t)) (n - p) := by
  intro p acc
  rw [prange]
  split
  · rename_i hp
    rw [List.foldl_cons]
    rw [blockedAccum_go n bs hbs d (p + bs)
      (acc - sumRange (fun t => d (p + t)) (min (p + bs) n - p))]
    by_cases hfit : p + bs ≤ n
    · have hmin : min (p + bs) n - p = bs := by omega
      rw [hmin]
      have hsplit : sumRange (fun t => d (p + t)) (n - p) =
          sumRange (fun t => d (p + t)) bs +
            sumRange (fun t => d (p + bs + t)) (n - (p + bs)) := by
        have h1 : n - p = bs + (n - (p + bs)) := by omega
        rw [h1, sumRange_add_split]
        congr 1
        apply sumRange_congr
        intro k _
        congr 1
        omega
      rw [hsplit]
      abel
    · have hmin : min (p + bs) n - p = n - p := by omega
      have hempty : n - (p + bs) = 0 := by omega
      rw [hmin, hempty]
      rw [show sumRange (fun t => d (p + bs + t)) 0 = 0 from rfl, sub_zero]
  · rename_i hp
    have hnp : n - p = 0 := by omega
    rw [hnp]
    rw [show sumRange (fun t => d (p + t)) 0 = 0 from rfl, sub_zero]
    rfl
termination_by p => n - p
decreasing_by
  rename_i h
  omega

/-- Claim C3: the blocked reciprocal-space accumulation is purely a
memory-bounding device.  For every memory budget (hence every block size
`max 2048 budgetBlk` produced by
`max(2048, int(max_memory*.4e6/16/nao))`), the block size never drops
below the 2048-grid-point minimum, and the accumulated result equals a
single unblocked pass over all `ngrids` grid points (exactly, in the
real-arithmetic model - i.e. up to floating-point summation order). -/
theorem c3_blocking_is_memory_only {V : Type _} [AddCommGroup V]
    (budgetBlk ngrids : ℕ) (init : V) (d : ℕ → V) :
    2048 ≤ max 2048 budgetBlk ∧
    blockedAccum init ngrids (max 2048 budgetBlk) d =
      init - sumRange d ngrids := by
  refine ⟨le_max_left _ _, ?_⟩
  unfold blockedAccum
  rw [blockedAccum_go ngrids (max 2048 budgetBlk) (by omega) d 0 init]
  have h1 : sumRange (fun t => d (0 + t)) (ngrids - 0) = sumRange d ngrids := by
    have h2 : ngrids - 0 = ngrids := rfl
    rw [h2]
    apply sumRange_congr
    intro k _
    rw [Nat.zero_add]
  rw [h1]

end Blocking

section OddMesh

/-- The mesh rounding helper `_round_off_to_odd_mesh` (lines 443-451):
`[(i//2)*2+1 for i in mesh]`. -/
def roundOffToOddMesh (mesh : List ℕ) : List ℕ :=
  mesh.map fun i => i / 2 * 2 + 1

/-- Claim C8: `_round_off_to_odd_mesh` maps every non-negative integer
mesh dimension to an odd number, so every mesh the builder rounds through
it has all dimensions odd (the k, -k conjugate-symmetry invariant). -/
theorem c8_round_off_to_odd_mesh (mesh : List ℕ) :
    ∀ d ∈ roundOffToOddMesh mesh, Odd d := by
  intro d hd
  simp only [roundOffToOddMesh, List.mem_map] at hd
  obtain ⟨i, _, rfl⟩ := hd
  exact ⟨i / 2, by omega⟩

/-- Witness for C8 at a concrete even-dimension mesh. -/
theorem c8_round_off_to_odd_mesh_witness :
    (5 ∈ roundOffToOddMesh [4, 7, 0]) ∧ Odd 5 :=
  ⟨by decide, c8_round_off_to_odd_mesh [4, 7, 0] 5 (by decide)⟩

end OddMesh

section ModchgBasis

/-- One shell emitted by `make_modchg_basis`: the source row
`[ia, l, 1, 1, 0, ptr_eta, ptr, 0]` (one primitive, one contraction)
together with the exponent and contraction coefficient it points to. -/
structure ChgShell (K : Type _) where
  atom : ℕ
  l : ℕ
  nprim : ℕ
  nctr : ℕ
  exp : K
  coeff : K
deriving DecidableEq, Repr

/-- The distinct angular momenta of the auxiliary shells sitting on atom
`ia`: the source's `set(auxcell._bas[auxcell._bas[:,ATOM_OF]==ia,
ANG_OF])`.  Python set iteration order is unspecified; `dedup` provides
one enumeration of the same set. -/
def distinctLs (bas : List AuxShell) (ia : ℕ) : List ℕ :=
  ((bas.filter fun s => s.atom = ia).map fun s => s.l).dedup

/-- `make_modchg_basis(auxcell, smooth_eta)` (lines 328-360): for every
atom and every angular momentum present on that atom in the auxiliary
basis, emit one primitive smooth Gaussian shell of exponent `eta`
normalized by `half_sph_norm / gaussian_int(l*2+2, eta)` (the exact
multipole integral; `gto.gaussian_int` is an external routine, passed as
a parameter). -/
def make_modchg_basis {K : Type _} [Field K] (natm : ℕ)
    (bas : List AuxShell) (eta halfSphNorm : K)
    (gaussianInt : ℕ → K → K) : List (ChgShell K) :=
  ((List.range natm).map fun ia =>
    (distinctLs bas ia).map fun l =>
      ⟨ia, l, 1, 1, eta, halfSphNorm / gaussianInt (l * 2 + 2) eta⟩).flatten

/-- Number of angular components of a shell of angular momentum `l`:
`2l+1` spherical, `(l+1)(l+2)/2` Cartesian. -/
def shellDimC (cart : Bool) (l : ℕ) : ℕ :=
  if cart then cartDim l else 2 * l + 1

/-- Total basis-function count (`nao_nr`) of a model-charge basis. -/
def chgNao {K : Type _} (cart : Bool) (shells : List (ChgShell K)) : ℕ :=
  (shells.map fun s => shellDimC cart s.l * s.nctr).sum

/-- The distinct (atom, angular momentum) pairs of an auxiliary basis. -/
def distinctAtomLPairs (bas : List AuxShell) : List (ℕ × ℕ) :=
  (bas.map fun s => (s.atom, s.l)).dedup

/-- Counterexample to claim C5: for an auxiliary cell with a single atom
carrying a single p shell (`l = 1`), the model-charge basis has one shell
but `2*1+1 = 3` basis functions, while the number of distinct (atom, l)
pairs is 1.  The claimed equality of the basis-function count with the
number of distinct pairs fails for any angular momentum above zero. -/
theorem c5_modchg_nao_counterexample :
    chgNao false
        (make_modchg_basis 1 [⟨0, 1, 1⟩] (1 : ℚ) 1 fun _ _ => 1) ≠
      (distinctAtomLPairs [⟨0, 1, 1⟩]).length := by
  decide

theorem mem_distinctLs (bas : List AuxShell) (ia l : ℕ) :
    l ∈ distinctLs bas ia ↔ ∃ s ∈ bas, s.atom = ia ∧ s.l = l := by
  unfold distinctLs
  rw [List.mem_dedup, List.mem_map]
  constructor
  · rintro ⟨s, hs, rfl⟩
    rw [List.mem_filter] at hs
    exact ⟨s, hs.1, by simpa using hs.2, rfl⟩
  · rintro ⟨s, hs, ha, rfl⟩
    exact ⟨s, List.mem_filter.mpr ⟨hs, by simpa using ha⟩, rfl⟩

/-- The (atom, l) tags of the model-charge shells, as a flattened list of
per-atom pair lists. -/
def chgPairList (natm : ℕ) (bas : List AuxShell) : List (ℕ × ℕ) :=
  ((List.range natm).map fun ia =>
    (distinctLs bas ia).map fun l => ((ia, l) : ℕ × ℕ)).flatten

theorem chgPairs_eq {K : Type _} [Field K] (natm : ℕ) (bas : List AuxShell)
    (eta halfSphNorm : K) (gaussianInt : ℕ → K → K) :
    (make_modchg_basis natm bas eta halfSphNorm gaussianInt).map
      (fun s => ((s.atom, s.l) : ℕ × ℕ)) = chgPairList natm bas := by
  unfold make_modchg_basis chgPairList
  rw [List.map_flatten, List.map_map]
  congr 1
  apply List.map_congr_left
  intro ia _
  rw [Function.comp_apply, List.map_map]
  rfl

theorem mem_chgPairList (natm : ℕ) (bas : List AuxShell) (x : ℕ × ℕ) :
    x ∈ chgPairList natm bas ↔
      x.1 < natm ∧ x.2 ∈ distinctLs bas x.1 := by
  unfold chgPairList
  rw [List.mem_flatten]
  constructor
  · rintro ⟨l, hl, hx⟩
    rw [List.mem_map] at hl
    obtain ⟨ia, hia, rfl⟩ := hl
    rw [List.mem_map] at hx
    obtain ⟨l0, hl0, rfl⟩ := hx
    exact ⟨List.mem_range.mp hia, hl0⟩
  · rintro ⟨h1, h2⟩
    refine ⟨(distinctLs bas x.1).map fun l => ((x.1, l) : ℕ × ℕ),
      List.mem_map.mpr ⟨x.1, List.mem_range.mpr h1, rfl⟩, ?_⟩
    exact List.mem_map.mpr ⟨x.2, h2, rfl⟩

theorem nodup_chgPairList (natm : ℕ) (bas : List AuxShell) :
    (chgPairList natm bas).Nodup := by
  unfold chgPairList
  rw [List.nodup_flatten]
  constructor
  · intro l hl
    rw [List.mem_map] at hl
    obtain ⟨ia, _, rfl⟩ := hl
    exact (List.nodup_dedup _).map fun a b h => by
      simpa using congrArg Prod.snd h
  · rw [List.pairwise_map]
    apply (List.pairwise_lt_range natm).imp
    intro a b hab x hxa hxb
    rw [List.mem_map] at hxa hxb
    obtain ⟨la, _, rfl⟩ := hxa
    obtain ⟨lb, _, h⟩ := hxb
    have : b = a := congrArg Prod.fst h
    omega

theorem mem_distinctAtomLPairs (bas : List AuxShell) (x : ℕ × ℕ) :
    x ∈ distinctAtomLPairs bas ↔ ∃ s ∈ bas, s.atom = x.1 ∧ s.l = x.2 := by
  unfold distinctAtomLPairs
  rw [List.mem_dedup, List.mem_map]
  constructor
  · rintro ⟨s, hs, rfl⟩
    exact ⟨s, hs, rfl, rfl⟩
  · rintro ⟨s, hs, h1, h2⟩
    refine ⟨s, hs, ?_⟩
    rw [h1, h2]

theorem count_one_of_nodup_mem {α : Type _} [BEq α] [LawfulBEq α]
    {l : List α} {a : α} (hn : l.Nodup) (ha : a ∈ l) : l.count a = 1 := by
  induction l with
  | nil => simp at ha
  | cons b t ih =>
    rw [List.count_cons]
    rcases List.mem_cons.mp ha with rfl | hat
    · rw [List.count_eq_zero_of_not_mem (List.nodup_cons.mp hn).1]
      simp
    · have hbne : ¬(b == a) = true := by
        have hb := (List.nodup_cons.mp hn).1
        simp only [beq_iff_eq]
        rintro rfl
        exact hb hat
      rw [ih (List.nodup_cons.mp hn).2 hat, if_neg hbne]

theorem chgPairList_perm (natm : ℕ) (bas : List AuxShell)
    (hwf : ∀ s ∈ bas, s.atom < natm) :
    (chgPairList natm bas).Perm (distinctAtomLPairs bas) := by
  have hnd : (distinctAtomLPairs bas).Nodup := by
    unfold distinctAtomLPairs
    exact List.nodup_dedup _
  rw [List.perm_ext_iff_of_nodup (nodup_chgPairList natm bas) hnd]
  intro x
  rw [mem_chgPairList, mem_distinctAtomLPairs, mem_distinctLs]
  constructor
  · rintro ⟨_, s, hs, h1, h2⟩
    exact ⟨s, hs, h1, h2⟩
  · rintro ⟨s, hs, h1, h2⟩
    exact ⟨h1 ▸ hwf s hs, s, hs, h1, h2⟩

/-- Amended claim C5: the model-charge basis contains exactly one shell
per distinct (atom, angular-momentum) pair occurring in the auxiliary
cell, each a single-primitive, single-contraction Gaussian of exponent
`eta`; its shell count equals the number of distinct (atom, l) pairs, and
its total basis-function count is the sum over the distinct (atom, l)
pairs of the angular component count of `l` (`2l+1` spherical,
`(l+1)(l+2)/2` Cartesian) - not the bare number of pairs. -/
theorem c5_modchg_basis_amended {K : Type _} [Field K] (natm : ℕ)
    (bas : List AuxShell) (eta halfSphNorm : K)
    (gaussianInt : ℕ → K → K) (cart : Bool)
    (hwf : ∀ s ∈ bas, s.atom < natm) :
    (∀ ia l : ℕ,
      ((make_modchg_basis natm bas eta halfSphNorm gaussianInt).map
        (fun s => ((s.atom, s.l) : ℕ × ℕ))).count (ia, l) =
        if ia < natm ∧ ∃ s ∈ bas, s.atom = ia ∧ s.l = l then 1 else 0) ∧
    (∀ s ∈ make_modchg_basis natm bas eta halfSphNorm gaussianInt,
      s.nprim = 1 ∧ s.nctr = 1 ∧ s.exp = eta) ∧
    (make_modchg_basis natm bas eta halfSphNorm gaussianInt).length =
      (distinctAtomLPairs bas).length ∧
    chgNao cart (make_modchg_basis natm bas eta halfSphNorm gaussianInt) =
      ((distinctAtomLPairs bas).map fun pr => shellDimC cart pr.2).sum := by
  have hperm := chgPairList_perm natm bas hwf
  refine ⟨?_, ?_, ?_, ?_⟩
  · intro ia l
    rw [chgPairs_eq]
    by_cases hmem : ((ia, l) : ℕ × ℕ) ∈ chgPairList natm bas
    · rw [count_one_of_nodup_mem (nodup_chgPairList natm bas) hmem]
      rw [mem_chgPairList, mem_distinctLs] at hmem
      rw [if_pos ⟨hmem.1, hmem.2⟩]
    · rw [List.count_eq_zero_of_not_mem hmem]
      rw [mem_chgPairList, mem_distinctLs] at hmem
      rw [if_neg hmem]
  · intro s hs
    unfold make_modchg_basis at hs
    rw [List.mem_flatten] at hs
    obtain ⟨l, hl, hs⟩ := hs
    rw [List.mem_map] at hl
    obtain ⟨ia, _, rfl⟩ := hl
    rw [List.mem_map] at hs
    obtain ⟨l0, _, rfl⟩ := hs
    exact ⟨rfl, rfl, rfl⟩
  · have h1 : (make_modchg_basis natm bas eta halfSphNorm gaussianInt).length
        = (chgPairList natm bas).length := by
      rw [← chgPairs_eq natm bas eta halfSphNorm gaussianInt,
        List.length_map]
    rw [h1]
    exact hperm.length_eq
  · have hone : ∀ s ∈ make_modchg_basis natm bas eta halfSphNorm gaussianInt,
        shellDimC cart s.l * s.nctr = shellDimC cart s.l := by
      intro s hs
      unfold make_modchg_basis at hs
      rw [List.mem_flatten] at hs
      obtain ⟨l, hl, hs⟩ := hs
      rw [List.mem_map] at hl
      obtain ⟨ia, _, rfl⟩ := hl
      rw [List.mem_map] at hs
      obtain ⟨l0, _, rfl⟩ := hs
      exact mul_one _
    unfold chgNao
    rw [List.map_congr_left hone]
    have h2 : (make_modchg_basis natm bas eta halfSphNorm gaussianInt).map
        (fun s => shellDimC cart s.l) =
        ((make_modchg_basis natm bas eta halfSphNorm gaussianInt).map
          (fun s => ((s.atom, s.l) : ℕ × ℕ))).map
          (fun pr => shellDimC cart pr.2) := by
      rw [List.map_map]
      rfl
    rw [h2, chgPairs_eq]
    exact (hperm.map fun pr => shellDimC cart pr.2).sum_eq

/-- Witness for the amended C5 at a concrete one-atom, one-p-shell
auxiliary basis. -/
theorem c5_modchg_basis_amended_witness :
    (∀ s ∈ ([⟨0, 1, 1⟩] : List AuxShell), s.atom < 1) ∧
    ((∀ ia l : ℕ,
      ((make_modchg_basis 1 [⟨0, 1, 1⟩] (1 : ℚ) 1 fun _ _ => 1).map
        (fun s => ((s.atom, s.l) : ℕ × ℕ))).count (ia, l) =
        if ia < 1 ∧ ∃ s ∈ ([⟨0, 1, 1⟩] : List AuxShell),
          s.atom = ia ∧ s.l = l then 1 else 0) ∧
    (∀ s ∈ make_modchg_basis 1 [⟨0, 1, 1⟩] (1 : ℚ) 1 fun _ _ => 1,
      s.nprim = 1 ∧ s.nctr = 1 ∧ s.exp = 1) ∧
    (make_modchg_basis 1 [⟨0, 1, 1⟩] (1 : ℚ) 1 fun _ _ => 1).length =
      (distinctAtomLPairs [⟨0, 1, 1⟩]).length ∧
    chgNao false (make_modchg_basis 1 [⟨0, 1, 1⟩] (1 : ℚ) 1 fun _ _ => 1) =
      ((distinctAtomLPairs [⟨0, 1, 1⟩]).map fun pr =>
        shellDimC false pr.2).sum) :=
  ⟨by decide, c5_modchg_basis_amended 1 [⟨0, 1, 1⟩] (1 : ℚ) 1
    (fun _ _ => 1) false (by decide)⟩

end ModchgBasis

section Auxbar

/-- One shell of the fused cell as read by `auxbar`: angular momentum,
primitive exponents, and contraction count. -/
structure BasShell (K : Type _) where
  l : ℕ
  exps : List K
  nctr : ℕ
deriving DecidableEq, Repr

/-- The fused-cell data consumed by `auxbar` and the j3c loader:
dimensionality, split-Ewald parameter omega, cell volume, Cartesian flag
and shell table. -/
structure FCell (K : Type _) where
  dimension : ℕ
  omega : K
  vol : K
  cart : Bool
  bas : List (BasShell K)
deriving DecidableEq, Repr

/-- Basis-function count of one shell (`aux_loc[i+1] - aux_loc[i]`). -/
def shellWidth {K : Type _} (cart : Bool) (sh : BasShell K) : ℕ :=
  shellDimC cart sh.l * sh.nctr

/-- Total function count `aux_loc[-1]` of the fused cell. -/
def fcellNao {K : Type _} (fc : FCell K) : ℕ :=
  (fc.bas.map (shellWidth fc.cart)).sum

/-- Pad or truncate to length `n` (numpy slice assignment requires the
exact length; real cells always match). -/
def padTo {K : Type _} [Zero K] (n : ℕ) (xs : List K) : List K :=
  (xs ++ List.replicate n 0).take n

/-- The entries `auxbar` writes for one shell (lines 308-318): for an
s shell with a single primitive, `-1/es[0]` at the shell's first position
(the rest of the `vbar` slots of that shell stay zero); for a contracted
s shell, the values `einsum('in,i->n', cs, -1/es)` - the contraction
coefficients come from the external `_libcint_ctr_coeff`, so the whole
einsum is abstracted as `ctrVals i`; shells with `l > 0` are never
written. -/
def auxbarBlock {K : Type _} [Field K] (cart : Bool) (ctrVals : ℕ → List K)
    (i : ℕ) (sh : BasShell K) : List K :=
  if sh.l = 0 then
    if sh.exps.length = 1 then
      -(1 / sh.exps.getD 0 0) :: List.replicate (shellWidth cart sh - 1) 0
    else padTo (shellWidth cart sh) (ctrVals i)
  else List.replicate (shellWidth cart sh) 0

/-- The shell loop of `auxbar`, walking `aux_loc` block by block. -/
def auxbarGo {K : Type _} [Field K] (cart : Bool) (ctrVals : ℕ → List K) :
    List (BasShell K) → ℕ → List K
  | [], _ => []
  | sh :: rest, i =>
    auxbarBlock cart ctrVals i sh ++ auxbarGo cart ctrVals rest (i + 1)

/-- `auxbar(fused_cell)` (lines 291-326): identically zero for non-3D
cells or a short-range kernel (`omega < 0`); otherwise the per-shell
values scaled by `pi / vol` (`piv` stands for the float `np.pi`). -/
def auxbar {K : Type _} [LinearOrderedField K] (piv : K) (fc : FCell K)
    (ctrVals : ℕ → List K) : List K :=
  if fc.dimension ≠ 3 ∨ fc.omega < 0 then List.replicate (fcellNao fc) 0
  else (auxbarGo fc.cart ctrVals fc.bas 0).map fun x => x * (piv / fc.vol)

/-- The `vbar` setup of `gen_j3c_loader` (lines 210-233): `vbar` is
computed only for a 3D cell at the zero k-point, and dropped entirely
(`vbar = None`) when it has no nonzero entry. -/
def genJ3cVbar {K : Type _} [LinearOrderedField K] [DecidableEq K]
    (cellDim : ℕ) (kptIsZero : Bool) (piv : K) (fc : FCell K)
    (ctrVals : ℕ → List K) : Option (List K) :=
  if cellDim = 3 ∧ kptIsZero = true then
    if (auxbar piv fc ctrVals).all (fun x => decide (x = 0)) then none
    else some (auxbar piv fc ctrVals)
  else none

/-- The real part of one `load_j3c` block (lines 235-252): rows whose
`vbar` entry is nonzero get `vR[idx] -= vbar[idx] * ovlp[col0:col1]`;
with `vbar = None` the buffer passes through untouched. -/
def load_j3c {K : Type _} [LinearOrderedField K] [DecidableEq K]
    (vb : Option (List K)) (ovlp : List K) (vR : List (List K)) :
    List (List K) :=
  match vb with
  | none => vR
  | some vbar =>
    vR.mapIdx fun p row =>
      if vbar.getD p 0 ≠ 0 then
        sub1 row (ovlp.map fun s => vbar.getD p 0 * s)
      else row

/-- Claim C7: for a fused cell that is not 3D, or whose omega is negative
(short-range-only kernel), `auxbar` returns the identically zero vector,
the loader's `vbar` is `None` (either because the 3D test fails or
because the all-zero `vbar` has an empty nonzero-index set), and the
three-center load applies no background-charge correction to the buffer.
`cellDim` is the builder cell's dimension (equal to the fused cell's in
the builder; the conclusion holds for any value, since an all-zero `vbar`
is dropped even when the loader's own 3D test passes). -/
theorem c7_no_vbar_correction {K : Type _} [LinearOrderedField K]
    [DecidableEq K] (piv : K) (fc : FCell K) (ctrVals : ℕ → List K)
    (cellDim : ℕ) (kz : Bool) (ovlp : List K) (vR : List (List K))
    (hcond : fc.dimension ≠ 3 ∨ fc.omega < 0) :
    auxbar piv fc ctrVals = List.replicate (fcellNao fc) 0 ∧
    genJ3cVbar cellDim kz piv fc ctrVals = none ∧
    load_j3c (genJ3cVbar cellDim kz piv fc ctrVals) ovlp vR = vR := by
  have hzero : auxbar piv fc ctrVals = List.replicate (fcellNao fc) 0 := by
    unfold auxbar
    rw [if_pos hcond]
  have hnone : genJ3cVbar cellDim kz piv fc ctrVals = none := by
    unfold genJ3cVbar
    by_cases h3 : cellDim = 3 ∧ kz = true
    · rw [if_pos h3, hzero]
      rw [if_pos (by simp)]
    · rw [if_neg h3]
  refine ⟨hzero, hnone, ?_⟩
  rw [hnone]
  rfl

/-- Witness for C7: a 2D cell fed to the loader with the matching
builder dimension. -/
theorem c7_no_vbar_correction_witness :
    ((FCell.mk 2 (0 : ℚ) 1 false [⟨0, [1], 1⟩]).dimension ≠ 3 ∨
      (FCell.mk 2 (0 : ℚ) 1 false [⟨0, [1], 1⟩]).omega < 0) ∧
    (auxbar (3 : ℚ) (FCell.mk 2 0 1 false [⟨0, [1], 1⟩]) (fun _ => []) =
        List.replicate (fcellNao (FCell.mk 2 (0 : ℚ) 1 false
          [⟨0, [1], 1⟩])) 0 ∧
      genJ3cVbar 2 true (3 : ℚ) (FCell.mk 2 0 1 false [⟨0, [1], 1⟩])
        (fun _ => []) = none ∧
      load_j3c (genJ3cVbar 2 true (3 : ℚ) (FCell.mk 2 0 1 false
        [⟨0, [1], 1⟩]) (fun _ => [])) [1, 2] [[1, 1], [2, 2]] =
        [[1, 1], [2, 2]]) :=
  ⟨by decide,
    c7_no_vbar_correction (3 : ℚ) (FCell.mk 2 0 1 false [⟨0, [1], 1⟩])
      (fun _ => []) 2 true [1, 2] [[1, 1], [2, 2]] (by decide)⟩

/-- Angular momentum of the shell whose `aux_loc` block contains
position `p`. -/
def shellLAt {K : Type _} (cart : Bool) : List (BasShell K) → ℕ → Option ℕ
  | [], _ => none
  | sh :: rest, p =>
    if p < shellWidth cart sh then some sh.l
    else shellLAt cart rest (p - shellWidth cart sh)

theorem cartDim_pos (l : ℕ) : 0 < cartDim l := by
  unfold cartDim
  exact (Nat.le_div_iff_mul_le (by omega)).mpr (by nlinarith)

theorem shellWidth_pos {K : Type _} (cart : Bool) (sh : BasShell K)
    (h : 0 < sh.nctr) : 0 < shellWidth cart sh := by
  unfold shellWidth shellDimC
  split
  · exact Nat.mul_pos (cartDim_pos _) h
  · exact Nat.mul_pos (by omega) h

theorem auxbarBlock_length {K : Type _} [Field K] (cart : Bool)
    (ctrVals : ℕ → List K) (i : ℕ) (sh : BasShell K)
    (h : 0 < shellWidth cart sh) :
    (auxbarBlock cart ctrVals i sh).length = shellWidth cart sh := by
  unfold auxbarBlock
  split
  · split
    · simp only [List.length_cons, List.length_replicate]
      omega
    · unfold padTo
      simp only [List.length_take, List.length_append, List.length_replicate]
      omega
  · simp

theorem auxbarBlock_getD_zero {K : Type _} [Field K] (cart : Bool)
    (ctrVals : ℕ → List K) (i : ℕ) (sh : BasShell K) (p : ℕ)
    (hl : 0 < sh.l) : (auxbarBlock cart ctrVals i sh).getD p 0 = 0 := by
  unfold auxbarBlock
  rw [if_neg (by omega)]
  rw [List.getD_eq_getElem?_getD, List.getElem?_replicate]
  split <;> rfl

theorem auxbarGo_getD_zero {K : Type _} [Field K] (cart : Bool)
    (ctrVals : ℕ → List K) :
    ∀ (bas : List (BasShell K)) (i p l : ℕ),
      (∀ sh ∈ bas, 0 < sh.nctr) →
      shellLAt cart bas p = some l → 0 < l →
      (auxbarGo cart ctrVals bas i).getD p 0 = 0 := by
  intro bas
  induction bas with
  | nil =>
    intro i p l _ h _
    exact absurd h (by simp [shellLAt])
  | cons sh rest ih =>
    intro i p l hn hat hl
    simp only [auxbarGo]
    simp only [shellLAt] at hat
    have hw : 0 < shellWidth cart sh := shellWidth_pos cart sh (hn sh (by simp))
    by_cases hp : p < shellWidth cart sh
    · rw [if_pos hp] at hat
      have hsl : sh.l = l := Option.some.inj hat
      rw [List.getD_append _ _ _ _
        (by rw [auxbarBlock_length _ _ _ _ hw]; exact hp)]
      exact auxbarBlock_getD_zero cart ctrVals i sh p (by omega)
    · rw [if_neg hp] at hat
      rw [List.getD_append_right _ _ _ _
        (by rw [auxbarBlock_length _ _ _ _ hw]; omega)]
      rw [auxbarBlock_length _ _ _ _ hw]
      exact ih (i + 1) (p - shellWidth cart sh) l
        (fun s hs => hn s (List.mem_cons_of_mem _ hs)) hat hl

/-- Claim C10: for a 3D fused cell with non-negative omega, the vector
returned by `auxbar` is zero at every basis-function position belonging
to a shell of angular momentum `l > 0`: the loop writes only s-shell
slots, and the final `pi/vol` scaling preserves the zeros.  The
contraction-count hypothesis rules out degenerate zero-width shells,
which cannot occur in a pyscf cell. -/
theorem c10_auxbar_zero_for_l_pos {K : Type _} [LinearOrderedField K]
    (piv : K) (fc : FCell K) (ctrVals : ℕ → List K) (p l : ℕ)
    (h3 : fc.dimension = 3) (homega : 0 ≤ fc.omega)
    (hn : ∀ sh ∈ fc.bas, 0 < sh.nctr)
    (hat : shellLAt fc.cart fc.bas p = some l) (hl : 0 < l) :
    (auxbar piv fc ctrVals).getD p 0 = 0 := by
  unfold auxbar
  rw [if_neg (by
    rintro (h | h)
    · exact h h3
    · exact absurd h (not_lt.mpr homega))]
  by_cases hp : p < (auxbarGo fc.cart ctrVals fc.bas 0).length
  · rw [getD_map_lt _ _ p 0 0 hp]
    rw [auxbarGo_getD_zero fc.cart ctrVals fc.bas 0 p l hn hat hl, zero_mul]
  · rw [getD_of_len_le _ _ _ (by rw [List.length_map]; omega)]

/-- Witness for C10: a 3D cell whose only shell is a p shell. -/
theorem c10_auxbar_zero_for_l_pos_witness :
    ((FCell.mk 3 (0 : ℚ) 1 false [⟨1, [2], 1⟩]).dimension = 3) ∧
    ((0 : ℚ) ≤ (FCell.mk 3 (0 : ℚ) 1 false [⟨1, [2], 1⟩]).omega) ∧
    (shellLAt false (FCell.mk 3 (0 : ℚ) 1 false [⟨1, [2], 1⟩]).bas 0 =
      some 1) ∧
    (auxbar (3 : ℚ) (FCell.mk 3 0 1 false [⟨1, [2], 1⟩])
      (fun _ => [])).getD 0 0 = 0 :=
  ⟨by decide, by decide, by decide,
    c10_auxbar_zero_for_l_pos (3 : ℚ) (FCell.mk 3 0 1 false [⟨1, [2], 1⟩])
      (fun _ => []) 0 1 (by decide) (by decide) (by decide) (by decide)
      (by decide)⟩

end Auxbar

section AddFt

variable {K : Type _}

/-- Elementwise addition of the second list onto the first, keeping the
extra tail of the first list (numpy in-place `+=` on equal shapes). -/
def add1 {V : Type _} [Add V] : List V → List V → List V
  | s, [] => s
  | [], _ => []
  | a :: s, b :: t => (a + b) :: add1 s t

/-- Row addition for list-of-rows matrices. -/
instance instAddList {α : Type _} [Add α] : Add (List α) :=
  ⟨List.zipWith (fun a b => a + b)⟩

/-- `add_ft_j3c(j3c, Gpq, Gaux, p0, p1)` (lines 256-272): slice the
weighted model-charge Fourier factors `Gaux = (GauxR, GauxI)` to the grid
block `[p0, p1)`, recover `naux` as the buffer row count minus the
model-charge column count, and for every k pair accumulate into the
trailing model-charge rows only:
`j3cR[k][naux:] -= GchgR^T GpqR + GchgI^T GpqI` and, when the imaginary
buffer exists, `j3cI[k][naux:] -= GchgR^T GpqI - GchgI^T GpqR` (the two
`lib.ddot` calls with coefficients -1, -1 resp. -1, +1). -/
def add_ft_j3c [CommRing K] (p0 p1 : ℕ) (j3cR : List (List (List K)))
    (j3cI : List (Option (List (List K)))) (GpqR GpqI : List (List (List K)))
    (GauxR GauxI : List (List K)) :
    List (List (List K)) × List (Option (List (List K))) :=
  let GchgR := (GauxR.drop p0).take (p1 - p0)
  let GchgI := (GauxI.drop p0).take (p1 - p0)
  let nchg := (GchgR.headD []).length
  let naux := (j3cR.headD []).length - nchg
  let GchgRT := transposeM nchg GchgR
  let GchgIT := transposeM nchg GchgI
  (List.zipWith
    (fun bufR pq =>
      bufR.take naux ++
        sub1 (sub1 (bufR.drop naux) (mmul GchgRT pq.1)) (mmul GchgIT pq.2))
    j3cR (GpqR.zip GpqI),
   List.zipWith
    (fun obufI pq =>
      obufI.map fun bufI =>
        bufI.take naux ++
          add1 (sub1 (bufI.drop naux) (mmul GchgRT pq.2)) (mmul GchgIT pq.1))
    j3cI (GpqR.zip GpqI))

theorem length_mmul [NonUnitalNonAssocSemiring K] (A B : List (List K)) :
    (mmul A B).length = A.length := by
  simp [mmul]

theorem rowlen_mmul [NonUnitalNonAssocSemiring K] (A B : List (List K))
    (i : ℕ) (hi : i < A.length) :
    ((mmul A B).getD i []).length = (B.headD []).length := by
  unfold mmul
  rw [getD_map_lt _ A i [] [] hi]
  simp

theorem headD_rowlen [Zero K] {n m : ℕ} {M : List (List K)}
    (h : isMat n m M) (hn : 0 < n) : (M.headD []).length = m := by
  cases M with
  | nil =>
    have := h.1
    simp at this
    omega
  | cons r t => exact h.2 r (by simp)

theorem getD_mem {α : Type _} (l : List α) (k : ℕ) (d : α)
    (h : k < l.length) : l.getD k d ∈ l := by
  rw [getD_of_lt _ _ _ h]
  exact List.getElem_mem h

/-- Claim C6: for every grid block `[p0, p1)` and every k-point pair `k`,
`add_ft_j3c` modifies only the trailing model-charge rows of the buffers:
every real and imaginary buffer row below `naux` is returned unchanged,
the imaginary buffer stays present or absent as it was, and the trailing
real rows receive the real part of the contraction of the weighted
model-charge Fourier factors with the orbital-pair Fourier transform,
accumulated by subtraction:
`new = old - (GchgR^T GpqR + GchgI^T GpqI)` entrywise. -/
theorem c6_add_ft_j3c_frame {K : Type _} [CommRing K]
    (p0 p1 naux nchg npair nG : ℕ) (j3cR : List (List (List K)))
    (j3cI : List (Option (List (List K)))) (GpqR GpqI : List (List (List K)))
    (GauxR GauxI : List (List K))
    (hnchg : (((GauxR.drop p0).take (p1 - p0)).headD []).length = nchg)
    (hnaux : (j3cR.headD []).length = naux + nchg)
    (hbufR : ∀ M ∈ j3cR, isMat (naux + nchg) npair M)
    (hbufI : ∀ ob ∈ j3cI, ∀ M, ob = some M → isMat (naux + nchg) npair M)
    (hGpqR : ∀ M ∈ GpqR, isMat nG npair M)
    (hGpqI : ∀ M ∈ GpqI, isMat nG npair M)
    (hnG : 0 < nG) :
    (∀ k, k < j3cR.length → k < GpqR.length → k < GpqI.length →
      (∀ r, r < naux →
        (((add_ft_j3c p0 p1 j3cR j3cI GpqR GpqI GauxR GauxI).1.getD
          k []).getD r []) = (j3cR.getD k []).getD r []) ∧
      (∀ r c, naux ≤ r → r < naux + nchg → c < npair →
        matGet ((add_ft_j3c p0 p1 j3cR j3cI GpqR GpqI GauxR GauxI).1.getD
            k []) r c =
          matGet (j3cR.getD k []) r c -
            matGet (addM
              (mmul (transposeM nchg ((GauxR.drop p0).take (p1 - p0)))
                (GpqR.getD k []))
              (mmul (transposeM nchg ((GauxI.drop p0).take (p1 - p0)))
                (GpqI.getD k [])))
              (r - naux) c)) ∧
    (∀ k, k < j3cI.length → k < GpqR.length → k < GpqI.length →
      ((add_ft_j3c p0 p1 j3cR j3cI GpqR GpqI GauxR GauxI).2.getD k none =
          none ↔ j3cI.getD k none = none) ∧
      ∀ oldBuf, j3cI.getD k none = some oldBuf → ∀ r, r < naux →
        ((((add_ft_j3c p0 p1 j3cR j3cI GpqR GpqI GauxR GauxI).2.getD
          k none).getD []).getD r []) = oldBuf.getD r []) := by
  have hnauxint : (j3cR.headD []).length -
      (((GauxR.drop p0).take (p1 - p0)).headD []).length = naux := by
    rw [hnchg, hnaux]
    omega
  have hfst : (add_ft_j3c p0 p1 j3cR j3cI GpqR GpqI GauxR GauxI).1 =
      List.zipWith
        (fun bufR pq =>
          bufR.take naux ++
            sub1 (sub1 (bufR.drop naux)
              (mmul (transposeM nchg ((GauxR.drop p0).take (p1 - p0)))
                pq.1))
              (mmul (transposeM nchg ((GauxI.drop p0).take (p1 - p0)))
                pq.2))
        j3cR (GpqR.zip GpqI) := by
    simp only [add_ft_j3c]
    rw [hnauxint, hnchg]
  have hsnd : (add_ft_j3c p0 p1 j3cR j3cI GpqR GpqI GauxR GauxI).2 =
      List.zipWith
        (fun obufI pq =>
          obufI.map fun bufI =>
            bufI.take naux ++
              add1 (sub1 (bufI.drop naux)
                (mmul (transposeM nchg ((GauxR.drop p0).take (p1 - p0)))
                  pq.2))
                (mmul (transposeM nchg ((GauxI.drop p0).take (p1 - p0)))
                  pq.1))
        j3cI (GpqR.zip GpqI) := by
    simp only [add_ft_j3c]
    rw [hnauxint, hnchg]
  constructor
  · intro k hk1 hk2 hk3
    have hzip : k < (GpqR.zip GpqI).length := by
      rw [List.length_zip]
      omega
    have hbuf : isMat (naux + nchg) npair (j3cR.getD k []) :=
      hbufR _ (getD_mem _ _ _ hk1)
    have hbpair : (GpqR.zip GpqI).getD k ([], []) =
        (GpqR.getD k [], GpqI.getD k []) := by
      rw [getD_of_lt _ _ _ hzip, getD_of_lt _ _ _ hk2, getD_of_lt _ _ _ hk3,
        List.getElem_zip]
    have hrowk : (add_ft_j3c p0 p1 j3cR j3cI GpqR GpqI GauxR GauxI).1.getD
        k [] =
        (j3cR.getD k []).take naux ++
          sub1 (sub1 ((j3cR.getD k []).drop naux)
            (mmul (transposeM nchg ((GauxR.drop p0).take (p1 - p0)))
              (GpqR.getD k [])))
            (mmul (transposeM nchg ((GauxI.drop p0).take (p1 - p0)))
              (GpqI.getD k [])) := by
      rw [hfst, getD_zipWith _ j3cR (GpqR.zip GpqI) k [] ([], []) [] hk1 hzip,
        hbpair]
    constructor
    · intro r hr
      rw [hrowk]
      have hlt : r < ((j3cR.getD k []).take naux).length := by
        simp only [List.length_take, hbuf.1]
        omega
      rw [List.getD_append _ _ _ _ hlt]
      rw [List.getD_eq_getElem?_getD, List.getElem?_take_of_lt hr,
        ← List.getD_eq_getElem?_getD]
    · intro r c hr1 hr2 hc
      have hNlen : (transposeM nchg
          ((GauxR.drop p0).take (p1 - p0))).length = nchg :=
        length_transposeM _ _
      have hNlen2 : (transposeM nchg
          ((GauxI.drop p0).take (p1 - p0))).length = nchg :=
        length_transposeM _ _
      have hA : (mmul (transposeM nchg ((GauxR.drop p0).take (p1 - p0)))
          (GpqR.getD k [])).length = nchg := by
        rw [length_mmul, hNlen]
      have hB : (mmul (transposeM nchg ((GauxI.drop p0).take (p1 - p0)))
          (GpqI.getD k [])).length = nchg := by
        rw [length_mmul, hNlen2]
      have hArow : ((mmul (transposeM nchg
          ((GauxR.drop p0).take (p1 - p0))) (GpqR.getD k [])).getD
          (r - naux) []).length = npair := by
        rw [rowlen_mmul _ _ _ (by rw [length_transposeM]; omega)]
        exact headD_rowlen (hGpqR _ (getD_mem _ _ _ hk2)) hnG
      have hBrow : ((mmul (transposeM nchg
          ((GauxI.drop p0).take (p1 - p0))) (GpqI.getD k [])).getD
          (r - naux) []).length = npair := by
        rw [rowlen_mmul _ _ _ (by rw [length_transposeM]; omega)]
        exact headD_rowlen (hGpqI _ (getD_mem _ _ _ hk3)) hnG
      have hdroplen : ((j3cR.getD k []).drop naux).length = nchg := by
        rw [List.length_drop, hbuf.1]
        omega
      have hdroprow : ((j3cR.getD k []).drop naux).getD (r - naux) [] =
          (j3cR.getD k []).getD r [] := by
        rw [List.getD_eq_getElem?_getD, List.getElem?_drop,
          Nat.add_sub_cancel' hr1, ← List.getD_eq_getElem?_getD]
      unfold matGet
      rw [hrowk]
      rw [List.getD_append_right _ _ _ _
        (by simp only [List.length_take, hbuf.1]; omega)]
      have htklen : ((j3cR.getD k []).take naux).length = naux := by
        simp only [List.length_take, hbuf.1]
        omega
      rw [htklen]
      have hrowlen : ((j3cR.getD k []).getD r []).length = npair :=
        rowlen_of_isMat hbuf (by omega)
      have hsub1a : r - naux <
          (sub1 ((j3cR.getD k []).drop naux)
            (mmul (transposeM nchg ((GauxR.drop p0).take (p1 - p0)))
              (GpqR.getD k []))).length := by
        rw [sub1_length, hdroplen]
        omega
      have hsub1b : r - naux <
          (mmul (transposeM nchg ((GauxI.drop p0).take (p1 - p0)))
            (GpqI.getD k [])).length := by
        rw [hB]
        omega
      have hsub2a : r - naux < ((j3cR.getD k []).drop naux).length := by
        rw [hdroplen]
        omega
      have hsub2b : r - naux <
          (mmul (transposeM nchg ((GauxR.drop p0).take (p1 - p0)))
            (GpqR.getD k [])).length := by
        rw [hA]
        omega
      rw [sub1_getD_lt _ _ _ _ hsub1a hsub1b]
      rw [sub1_getD_lt _ _ _ _ hsub2a hsub2b]
      rw [hdroprow]
      have hcB : c < ((mmul (transposeM nchg
          ((GauxI.drop p0).take (p1 - p0))) (GpqI.getD k [])).getD
          (r - naux) []).length := by
        rw [hBrow]
        omega
      have hcA : c < ((mmul (transposeM nchg
          ((GauxR.drop p0).take (p1 - p0))) (GpqR.getD k [])).getD
          (r - naux) []).length := by
        rw [hArow]
        omega
      have hcouter : c < ((j3cR.getD k []).getD r [] -
          (mmul (transposeM nchg ((GauxR.drop p0).take (p1 - p0)))
            (GpqR.getD k [])).getD (r - naux) []).length := by
        rw [listSub_def, List.length_zipWith, hrowlen, hArow]
        omega
      have hcrow : c < ((j3cR.getD k []).getD r []).length := by
        rw [hrowlen]
        omega
      rw [listSub_getD _ _ c 0 hcouter hcB]
      rw [listSub_getD _ _ c 0 hcrow hcA]
      have haddm := matGet_addM
        (A := mmul (transposeM nchg ((GauxR.drop p0).take (p1 - p0)))
          (GpqR.getD k []))
        (B := mmul (transposeM nchg ((GauxI.drop p0).take (p1 - p0)))
          (GpqI.getD k []))
        (r - naux) c (by rw [hA]; omega) (by rw [hB]; omega) hcA hcB
      unfold matGet at haddm
      rw [haddm]
      ring
  · intro k hk4 hk2 hk3
    have hzip : k < (GpqR.zip GpqI).length := by
      rw [List.length_zip]
      omega
    have hbpair : (GpqR.zip GpqI).getD k ([], []) =
        (GpqR.getD k [], GpqI.getD k []) := by
      rw [getD_of_lt _ _ _ hzip, getD_of_lt _ _ _ hk2, getD_of_lt _ _ _ hk3,
        List.getElem_zip]
    have hrowk : (add_ft_j3c p0 p1 j3cR j3cI GpqR GpqI GauxR GauxI).2.getD
        k none =
        (j3cI.getD k none).map fun bufI =>
          bufI.take naux ++
            add1 (sub1 (bufI.drop naux)
              (mmul (transposeM nchg ((GauxR.drop p0).take (p1 - p0)))
                (GpqI.getD k [])))
              (mmul (transposeM nchg ((GauxI.drop p0).take (p1 - p0)))
                (GpqR.getD k [])) := by
      rw [hsnd, getD_zipWith _ j3cI (GpqR.zip GpqI) k none ([], []) none
        hk4 hzip, hbpair]
    constructor
    · rw [hrowk]
      cases j3cI.getD k none <;> simp
    · intro oldBuf hold r hr
      rw [hrowk, hold]
      have hbuf : isMat (naux + nchg) npair oldBuf :=
        hbufI _ (getD_mem _ _ _ hk4) oldBuf hold
      show ((oldBuf.take naux ++ _ : List (List K))).getD r [] =
        oldBuf.getD r []
      have hlt : r < (oldBuf.take naux).length := by
        simp only [List.length_take, hbuf.1]
        omega
      rw [List.getD_append _ _ _ _ hlt]
      rw [List.getD_eq_getElem?_getD, List.getElem?_take_of_lt hr,
        ← List.getD_eq_getElem?_getD]

/-- Witness for C6: one k pair, one grid point, one auxiliary row, one
model-charge row, one orbital-pair column, with an imaginary buffer
present. -/
theorem c6_add_ft_j3c_frame_witness :
    (((((([[2]] : List (List ℚ))).drop 0).take (1 - 0)).headD []).length =
      1) ∧
    ((([[[5], [6]]] : List (List (List ℚ))).headD []).length = 1 + 1) ∧
    (∀ M ∈ ([[[5], [6]]] : List (List (List ℚ))), isMat (1 + 1) 1 M) ∧
    (∀ ob ∈ ([some [[7], [8]]] : List (Option (List (List ℚ)))),
      ∀ M, ob = some M → isMat (1 + 1) 1 M) ∧
    (∀ M ∈ ([[[4]]] : List (List (List ℚ))), isMat 1 1 M) ∧
    (∀ M ∈ ([[[9]]] : List (List (List ℚ))), isMat 1 1 M) ∧
    ((0 : ℕ) < 1) ∧
    ((∀ k, k < ([[[5], [6]]] : List (List (List ℚ))).length →
      k < ([[[4]]] : List (List (List ℚ))).length →
      k < ([[[9]]] : List (List (List ℚ))).length →
      (∀ r, r < 1 →
        (((add_ft_j3c 0 1 ([[[5], [6]]] : List (List (List ℚ))) [some [[7], [8]]] [[[4]]] [[[9]]]
          [[2]] [[3]]).1.getD k []).getD r []) =
          (([[[5], [6]]] : List (List (List ℚ))).getD k []).getD r []) ∧
      (∀ r c, 1 ≤ r → r < 1 + 1 → c < 1 →
        matGet ((add_ft_j3c 0 1 ([[[5], [6]]] : List (List (List ℚ))) [some [[7], [8]]] [[[4]]]
            [[[9]]] [[2]] [[3]]).1.getD k []) r c =
          matGet (([[[5], [6]]] : List (List (List ℚ))).getD k []) r c -
            matGet (addM
              (mmul (transposeM 1 ((([[2]] : List (List ℚ)).drop 0).take
                (1 - 0))) (([[[4]]] : List (List (List ℚ))).getD k []))
              (mmul (transposeM 1 ((([[3]] : List (List ℚ)).drop 0).take
                (1 - 0))) (([[[9]]] : List (List (List ℚ))).getD k [])))
              (r - 1) c)) ∧
    (∀ k, k < ([some [[7], [8]]] : List (Option (List (List ℚ)))).length →
      k < ([[[4]]] : List (List (List ℚ))).length →
      k < ([[[9]]] : List (List (List ℚ))).length →
      ((add_ft_j3c 0 1 ([[[5], [6]]] : List (List (List ℚ))) [some [[7], [8]]] [[[4]]] [[[9]]]
          [[2]] [[3]]).2.getD k none = none ↔
        ([some [[7], [8]]] : List (Option (List (List ℚ)))).getD k none =
          none) ∧
      ∀ oldBuf, ([some [[7], [8]]] : List (Option (List (List ℚ)))).getD
          k none = some oldBuf → ∀ r, r < 1 →
        ((((add_ft_j3c 0 1 ([[[5], [6]]] : List (List (List ℚ))) [some [[7], [8]]] [[[4]]] [[[9]]]
          [[2]] [[3]]).2.getD k none).getD []).getD r []) =
          oldBuf.getD r [])) :=
  ⟨by decide, by decide, by decide,
    (by
      intro ob hob M hM
      simp only [List.mem_singleton] at hob
      subst hob
      have hMeq : ([[7], [8]] : List (List ℚ)) = M := Option.some.inj hM
      subst hMeq
      exact ⟨by decide, by decide⟩),
    by decide, by decide, by decide,
    c6_add_ft_j3c_frame 0 1 1 1 1 1 [[[5], [6]]] [some [[7], [8]]]
      [[[4]]] [[[9]]] [[2]] [[3]] (by decide) (by decide) (by decide)
      (by
        intro ob hob M hM
        simp only [List.mem_singleton] at hob
        subst hob
        have hMeq : ([[7], [8]] : List (List ℚ)) = M := Option.some.inj hM
        subst hMeq
        exact ⟨by decide, by decide⟩)
      (by decide) (by decide) (by decide)⟩

end AddFt

end GdfBuilder
